import Mathlib

/-!
Verification of the header template matching and rendering engine of
eslint-plugin-headers against its natural-language specification.

Strings of the JavaScript source are modelled as `List Char`; regular
expressions built by the source (always by concatenating escaped literal
segments, user-supplied pattern fragments and capturing groups) are modelled
as sequences of `Atom`s with a backtracking, leftmost/greedy matching
function mirroring the JavaScript `RegExp` semantics for the constructs the
source actually produces.
-/

namespace Headers

abbrev Str := List Char

/-- Whitespace for the purposes of JavaScript `trimEnd`/`trim`
(ASCII whitespace, NBSP and the Unicode line/paragraph separators cover
every character the repository can produce). -/
def jsWhite (c : Char) : Bool :=
  c = ' ' || c = '\t' || c = '\n' || c = '\r' ||
  c = '\x0b' || c = '\x0c' || c = ' ' || c = ' ' || c = ' '

/-- JavaScript `String.prototype.trimEnd`. -/
def trimEndStr (s : Str) : Str :=
  (s.reverse.dropWhile jsWhite).reverse

/-- JavaScript `String.prototype.trimStart`. -/
def trimStartStr (s : Str) : Str :=
  s.dropWhile jsWhite

/-- JavaScript `String.prototype.trim`. -/
def trimStr (s : Str) : Str :=
  trimEndStr (trimStartStr s)

/-- Concatenation of parts with a separator between consecutive parts
(`List.intercalate`, with equations convenient for induction). -/
def joinParts {α : Type} (sep : List α) : List (List α) → List α
  | [] => []
  | [x] => x
  | x :: y :: rest => x ++ sep ++ joinParts sep (y :: rest)

/-- JavaScript `Array.prototype.join` with a separator string. -/
def joinWith (sep : Str) (xs : List Str) : Str :=
  joinParts sep xs

/-- `pat` occurs as a contiguous substring of `s`
(JavaScript `String.prototype.includes`). -/
def isInfixStr (pat s : Str) : Bool :=
  (List.range (s.length + 1)).any (fun i => pat.isPrefixOf (s.drop i))

/-- JavaScript `String.prototype.split` on a single-character separator
(always returns at least one part; `"".split` is `[""]`). -/
def splitOnChar (sep : Char) : Str → List Str
  | [] => [[]]
  | c :: rest =>
      let r := splitOnChar sep rest
      if c = sep then [] :: r
      else (c :: r.headD []) :: r.tail

/-! ## Regular-expression engine

The source only ever builds regexes by concatenating
  * regex-escaped literal text (semantically: match exactly that text),
  * user-supplied pattern fragments (`\w+`, `\d{4}`, ... — character-class
    repetitions and literals), and
  * capturing groups `( ... )` / named groups `(?<name>.*)`,
optionally anchored with `^` and `$` (anchoring is expressed here by the
choice of driver: `testStart`/`execFull`/`testEnd`/`execSearch`).
-/

/-- The character classes appearing in the repository's pattern fragments:
`\w`, `\d` and the dot (which in JavaScript does not match line
terminators). -/
inductive CharClass
  | word
  | digit
  | dot
deriving DecidableEq, Repr

def CharClass.matches : CharClass → Char → Bool
  | .word, c => (('a' ≤ c && c ≤ 'z') || ('A' ≤ c && c ≤ 'Z') ||
      ('0' ≤ c && c ≤ '9') || c = '_')
  | .digit, c => ('0' ≤ c && c ≤ '9')
  | .dot, c => !(c = '\n' || c = '\r' || c = ' ' || c = ' ')

/-- A group-free regex building block: escaped literal text, or a
repetition of a character class (`\w+` = `rep word 1 none`,
`\d{4}` = `rep digit 4 (some 4)`, `.*` = `rep dot 0 none`).  The
user-supplied pattern fragments of this repository are sequences of
these. -/
inductive SAtom
  | lit (t : Str)
  | rep (cc : CharClass) (lo : Nat) (hi : Option Nat)
deriving DecidableEq, Repr

/-- A regex element as the source concatenates them: a group-free piece, or
one capturing group `( fragment )` / `(?<name>.*)` wrapping a group-free
fragment (the source never nests groups: a group always wraps exactly one
user pattern fragment or one `.*`). -/
inductive Atom
  | simple (sa : SAtom)
  | grp (name : Option Str) (inner : List SAtom)
deriving DecidableEq, Repr

/-- Escaped literal text as a regex element. -/
def alit (t : Str) : Atom :=
  .simple (.lit t)

/-- A capture produced by a (possibly named) group. -/
structure Cap where
  name : Option Str
  val : Str
deriving DecidableEq, Repr

/-- Length of the longest run of `cc`-characters at the head of `s`. -/
def maxRun (cc : CharClass) : Str → Nat
  | [] => 0
  | c :: cs => if cc.matches c then maxRun cc cs + 1 else 0

/-- Candidate repetition counts in greedy (descending) order. -/
def repCounts (lo : Nat) (hi : Option Nat) (maxr : Nat) : List Nat :=
  let top := match hi with
    | none => maxr
    | some h => min h maxr
  ((List.range (top + 1)).reverse).filter (fun n => lo ≤ n)

/-- The ways one group-free atom can match a prefix of `s`: the possible
remainders, in JavaScript backtracking priority order (greedy repetitions
first). -/
def satomMatch : SAtom → Str → List Str
  | .lit t, s => if t.isPrefixOf s then [s.drop t.length] else []
  | .rep cc lo hi, s => (repCounts lo hi (maxRun cc s)).map (fun n => s.drop n)

/-- The ways a group-free fragment can match a prefix of `s`, in priority
order. -/
def matchSimp : List SAtom → Str → List Str
  | [], s => [s]
  | sa :: rest, s => (satomMatch sa s).flatMap (fun s' => matchSimp rest s')

/-- All ways a sequence of regex elements can match a prefix of `s`, in
JavaScript backtracking priority order.  Each result is the capture list
together with the remaining unconsumed input. -/
def matchSeq : List Atom → Str → List (List Cap × Str)
  | [], s => [([], s)]
  | .simple sa :: rest, s =>
      (satomMatch sa s).flatMap (fun s' => matchSeq rest s')
  | .grp nm inner :: rest, s =>
      (matchSimp inner s).flatMap (fun s' =>
        let consumed := s.take (s.length - s'.length)
        (matchSeq rest s').map (fun pr => (⟨nm, consumed⟩ :: pr.1, pr.2)))

/-- Results of `matchSeq` that consume the whole input. -/
def fullResults (as : List Atom) (s : Str) : List (List Cap × Str) :=
  (matchSeq as s).filter (fun r => r.2.isEmpty)

/-- `new RegExp("^" ++ R).test(s)`. -/
def testStart (as : List Atom) (s : Str) : Bool :=
  !(matchSeq as s).isEmpty

/-- `new RegExp("^" ++ R).exec(s)`, returning the capture list. -/
def execStart (as : List Atom) (s : Str) : Option (List Cap) :=
  ((matchSeq as s).head?).map (fun r => r.1)

/-- `new RegExp("^" ++ R ++ "$").exec(s)`. -/
def execFull (as : List Atom) (s : Str) : Option (List Cap) :=
  ((fullResults as s).head?).map (fun r => r.1)

/-- `new RegExp(R ++ "$").test(s)`. -/
def testEnd (as : List Atom) (s : Str) : Bool :=
  (List.range (s.length + 1)).any (fun i => !(fullResults as (s.drop i)).isEmpty)

/-- `new RegExp(R).exec(s)`: unanchored leftmost search. -/
def execSearch (as : List Atom) (s : Str) : Option (List Cap) :=
  (List.range (s.length + 1)).findSome? (fun i =>
    ((matchSeq as (s.drop i)).head?).map (fun r => r.1))

/-- Look a named capture up, as JavaScript `match.groups[name]` does. -/
def capLookup (name : Str) (caps : List Cap) : Option Str :=
  (caps.find? (fun c => c.name = some name)).map (fun c => c.val)

/-! ## Text utilities

The snapshot's `lib/utils.js` omits `normalizeEol`, `normalizeComments`,
`escapeRegex`/`escapeCharactersForRegex` and the placeholder scanner that
`lib/comment-block-matcher.js`, the comment formatter and the historical
matcher iterations import; those are modelled from the spec below.
Regex escaping is modelled semantically: an escaped string used inside a
regex matches exactly that string, i.e. it is a literal atom. -/

/-- Modelled from the spec: `normalizeEol`, missing from the snapshot's
`lib/utils.js`.  Carriage-return variants and the Unicode line/paragraph
separators are all treated as line breaks equivalent to `\n` (the source's
`newlineExpression` is `\r\n|\r|\n|\u2028|\u2029`; the Boolean flag
records a preceding `\r`, so `\r\n` collapses to a single `\n`). -/
def normEolAux : Bool → Str → Str
  | _, [] => []
  | prevCR, c :: rest =>
      if c = '\r' then '\n' :: normEolAux true rest
      else if c = '\n' then
        (if prevCR then normEolAux false rest else '\n' :: normEolAux false rest)
      else if c = ' ' ∨ c = ' ' then '\n' :: normEolAux false rest
      else c :: normEolAux false rest

def normalizeEol (s : Str) : Str :=
  normEolAux false s

/-- Modelled from the spec: `normalizeComments`, missing from the
snapshot's `lib/utils.js`.  Normalizes every comment fragment's text to the
`\n` EOL convention (only the fragment values matter to the core, so a
comment node is modelled by its `value`). -/
def normalizeComments (comments : List Str) : List Str :=
  comments.map normalizeEol

/-- A lexical segment of template text: a literal run, or one `(name)`
placeholder lexeme. -/
inductive Seg
  | lit (t : Str)
  | ph (name : Str)
deriving DecidableEq, Repr

def isWordChar (c : Char) : Bool :=
  CharClass.word.matches c

/-- Push one literal character in front of a segment list, merging it into
a leading literal run. -/
def segCons (c : Char) : List Seg → List Seg
  | .lit t :: rest => .lit (c :: t) :: rest
  | segs => .lit [c] :: segs

/-- Fuel-driven worker for `scanSegs` (the fuel only serves structural
recursion; `scanSegs` always supplies enough). -/
def scanSegsF : Nat → Str → List Seg
  | 0, _ => []
  | _ + 1, [] => []
  | fuel + 1, c :: rest =>
      if c = '(' then
        let w := rest.takeWhile isWordChar
        if w ≠ [] ∧ (rest.drop w.length).head? = some ')' then
          .ph w :: scanSegsF fuel (rest.drop (w.length + 1))
        else
          segCons c (scanSegsF fuel rest)
      else
        segCons c (scanSegsF fuel rest)

/-- Modelled from the spec (§4.2): the left-to-right non-overlapping scan
for `(identifier)` placeholder lexemes that the source performs with the
global regex `\((\w+)\)`.  A lexeme starts at `(`, takes a nonempty run of
word characters and requires `)` right after; a greedy `\w+` can only
backtrack to a position still followed by a word character, never by `)`,
so the maximal run is the only candidate and the scan never re-enters a
consumed region. -/
def scanSegs (s : Str) : List Seg :=
  scanSegsF s.length s

/-- The text a segment stands for. -/
def Seg.render : Seg → Str
  | .lit t => t
  | .ph n => '(' :: (n ++ [')'])

/-- A pattern registry entry: the user-supplied regex fragment (given
semantically, as atoms) plus the optional default value. -/
structure Pat where
  pattern : List SAtom
  defaultValue : Option Str

/-- The pattern registry: an insertion-ordered map from pattern name to
pattern info. -/
abbrev Registry := List (Str × Pat)

def regFind (reg : Registry) (n : Str) : Option Pat :=
  (reg.find? (fun p => p.1 = n)).map (fun p => p.2)

/-- A template segment with registered placeholders marked.  This is the
information content of the modelled-from-spec `getPatternLocations(string,
patterns)` utility: the registered `(name)` occurrences in scan order,
kept together with the literal text around them (an unregistered
placeholder is literal text). -/
inductive MSeg
  | lit (t : Str)
  | pat (name : Str)
deriving DecidableEq, Repr

/-- Modelled from the spec (§4.2 `locatePatterns`): classify the scanned
segments of `s` against the registry. -/
def markSegs (reg : Registry) (s : Str) : List MSeg :=
  (scanSegs s).map (fun seg =>
    match seg with
    | .lit t => .lit t
    | .ph n => if (regFind reg n).isSome then .pat n else .lit (Seg.render (.ph n)))

/-- The registered pattern names occurring in `s`, in scan order (the
`match[1]` column of `getPatternLocations`). -/
def patNames (reg : Registry) (s : Str) : List Str :=
  (markSegs reg s).filterMap (fun m =>
    match m with
    | .pat n => some n
    | .lit _ => none)

/-! ## `lib/comment-block-matcher.js` (the current matcher) -/

/-- `CommentBlockMatcher.processAndEscapeString`: regex-escapes the literal
runs of `str`, replaces each registered `(name)` placeholder by a capturing
group holding that pattern's own regex fragment, records the registered
names in `this.patternOrder`, and treats unregistered placeholders as
escaped literal text.  Returns the regex atoms together with the names
pushed onto `patternOrder`.  (With no `patterns` configured, or no
placeholder lexeme present, the whole string is escaped literal text;
pushing the escaped slices as separate segments versus one merged literal
is semantically identical.) -/
def processAndEscapeString (patterns : Option Registry) (s : Str) :
    List Atom × List Str :=
  match patterns with
  | none => ([alit s], [])
  | some reg =>
      let msegs := markSegs reg s
      (msegs.map (fun m =>
          match m with
          | .lit t => alit t
          | .pat n => Atom.grp none (((regFind reg n).map Pat.pattern).getD [])),
       msegs.filterMap (fun m =>
          match m with
          | .pat n => some n
          | .lit _ => none))

/-- `trimEnd` applied to a concatenation of regex pattern strings, in atom
form: a rendered group ends with `)`, which is not whitespace, so trimming
the rendered string only ever trims trailing escaped-literal segments
(dropping those that become empty). -/
def trimEndAtomsAux : List Atom → List Atom
  | [] => []
  | .simple (.lit t) :: rest =>
      if trimEndStr t = [] then trimEndAtomsAux rest
      else alit (trimEndStr t) :: rest
  | as => as

def trimEndAtoms (as : List Atom) : List Atom :=
  (trimEndAtomsAux as.reverse).reverse

/-- The comment styles (`"line" | "jsdoc" | "html"` in the source). -/
inductive Style
  | line
  | jsdoc
  | html
deriving DecidableEq, Repr

/-- Constructor field normalization `field ? normalizeEol(field) : ""`
(an absent or empty string becomes the empty string). -/
def normCfgField : Option Str → Str
  | none => []
  | some s => if s = [] then [] else normalizeEol s

/-- The matcher configuration (`blockPrefix`, `blockSuffix`, `linePrefix`
are renamed `blockPre`, `blockSuf`, `linePre` here).  `Option` fields model
JavaScript `undefined` versus a (possibly empty) string. -/
structure MatcherCfg where
  blockPre : Option Str
  blockSuf : Option Str
  linePre : Option Str
  style : Style
  expectedLines : List Str
  patterns : Option Registry

/-- The constructed `CommentBlockMatcher` of `lib/comment-block-matcher.js`:
normalized decoration fields, the prebuilt `prefixedBodyRegex` and
`suffixRegex` atoms, and the `patternOrder` accumulated while building them
(block prefix first, then per line the line prefix and the line, then the
suffix). -/
structure CommentBlockMatcher where
  blockPre : Str
  blockSuf : Str
  linePre : Str
  style : Style
  expectedLines : List Str
  patterns : Option Registry
  bodyAtoms : List Atom
  sufAtoms : List Atom
  patternOrder : List Str

/-- `new CommentBlockMatcher(config)` together with
`buildPrefixedBodyRegex`. -/
def mkMatcher (cfg : MatcherCfg) : CommentBlockMatcher :=
  let bp := normCfgField cfg.blockPre
  let bs := normCfgField cfg.blockSuf
  let lp := normCfgField cfg.linePre
  let pre := processAndEscapeString cfg.patterns bp
  let lineParts := cfg.expectedLines.map (fun line =>
    let lpp := processAndEscapeString cfg.patterns lp
    let lnp := processAndEscapeString cfg.patterns line
    (trimEndAtoms (lpp.1 ++ lnp.1), lpp.2 ++ lnp.2))
  let bodyAtoms := pre.1 ++ joinParts [alit ['\n']] (lineParts.map (fun p => p.1))
  let suf := processAndEscapeString cfg.patterns bs
  { blockPre := bp
    blockSuf := bs
    linePre := lp
    style := cfg.style
    expectedLines := cfg.expectedLines
    patterns := cfg.patterns
    bodyAtoms := bodyAtoms
    sufAtoms := suf.1
    patternOrder := pre.2 ++ (lineParts.map (fun p => p.2)).flatten ++ suf.2 }

/-- The dictionary built by the final loop of `match`: one slot appended
per name in `patternOrder`, each slot holding the (absent) capture
`prefixedBodyMatch[index + 1]` — `RegExp.test` returns a boolean, so
indexing it always yields `undefined`, modelled as `none`. -/
def patternValuesOfOrder (order : List Str) : List (Str × List (Option Str)) :=
  order.foldl (fun acc name =>
    match acc.find? (fun p => p.1 = name) with
    | some entry =>
        acc.map (fun p => if p.1 = name then (p.1, entry.2 ++ [none]) else p)
    | none => acc ++ [(name, [none])]) []

/-- `CommentBlockMatcher.match(comments)`.  Faithful to the source:
`this.patternOrder` is reset to `[]` at the start, the prebuilt regexes are
only `.test`ed against the joined normalized fragment text (which neither
repopulates `patternOrder` nor produces capture groups), and the pattern
value dictionary is then built by iterating over the (empty, reset)
`patternOrder`. -/
def CommentBlockMatcher.matchComments (m : CommentBlockMatcher)
    (comments : List Str) : Option (List (Str × List (Option Str))) :=
  let resetPatternOrder : List Str := []
  let content := joinWith ['\n'] (normalizeComments comments)
  let prefixedBodyMatch := testStart m.bodyAtoms content
  let suffixMatch := testEnd m.sufAtoms content
  if prefixedBodyMatch && suffixMatch then
    some (patternValuesOfOrder resetPatternOrder)
  else
    none

/-! ## `CommentFormatter` (`comment-formatter.js`) -/

/-- `patternValues`: the formatter's map from pattern name to the list of
values still to be consumed. -/
abbrev PVals := List (Str × List Str)

def pvHas (pv : PVals) (n : Str) : Bool :=
  (pv.find? (fun p => p.1 = n)).isSome

/-- The value `shift()` returns for name `n` (`none` models `undefined` on
an exhausted list). -/
def pvHead (pv : PVals) (n : Str) : Option Str :=
  ((pv.find? (fun p => p.1 = n)).map (fun p => p.2)).bind List.head?

/-- The map after `shift()`ing the list of name `n`. -/
def pvTail (pv : PVals) (n : Str) : PVals :=
  pv.map (fun p => if p.1 = n then (p.1, p.2.tail) else p)

/-- `CommentFormatter.formatPatternValues`: replaces each placeholder whose
name has an entry in `patternValues` (the modelled `getPatterns(string,
this.patternValues)` filter) by the next unconsumed value for that name.
The source takes a shallow copy `{...this.patternValues}` before
`shift()`ing, but the per-name arrays are shared with the original map, so
consumption is visible in the formatter's state afterwards; the function
therefore returns the updated map.  `Array.prototype.join` renders an
`undefined` (exhausted `shift`) as the empty string, and the joined result
is `trim`med at both ends. -/
def formatPatternValues (pv0 : PVals) (s : Str) : Str × PVals :=
  let step := (scanSegs s).foldl (fun acc seg =>
    match seg with
    | Seg.lit t => (acc.1 ++ t, acc.2)
    | Seg.ph n =>
        if pvHas acc.2 n then
          (acc.1 ++ (pvHead acc.2 n).getD [], pvTail acc.2 n)
        else
          (acc.1 ++ Seg.render (.ph n), acc.2)) (([] : Str), pv0)
  (trimStr step.1, step.2)

/-- The `CommentFormatter` state (`blockPrefix`, `blockSuffix`,
`linePrefix` renamed `blockPre`, `blockSuf`, `linePre`). -/
structure CommentFormatter where
  lines : List Str
  blockPre : Option Str
  blockSuf : Option Str
  linePre : Option Str
  eol : Str
  patternValues : Option PVals

/-- `CommentFormatter.getJsdoc`.  Pattern values are substituted only here
(neither `getLineBlock` nor `getHtmlBlock` calls `formatPatternValues`);
the updated formatter state is returned alongside the text. -/
def CommentFormatter.getJsdoc (f : CommentFormatter) : Str × CommentFormatter :=
  let bp := f.blockPre.getD ('*' :: f.eol)
  let bs := f.blockSuf.getD (f.eol ++ [' '])
  let lp := f.linePre.getD (" * ".data)
  let body := joinWith f.eol (f.lines.map (fun l => trimEndStr (lp ++ l)))
  match f.patternValues with
  | some pv =>
      let bodyPv := formatPatternValues pv body
      ("/*".data ++ bp ++ bodyPv.1 ++ bs ++ "*/".data,
       { f with patternValues := some bodyPv.2 })
  | none => ("/*".data ++ bp ++ body ++ bs ++ "*/".data, f)

/-- `CommentFormatter.getLineBlock`.  `(x && y) ?? ""` yields `""` both for
an undefined and for an empty `blockPrefix`/`blockSuffix`. -/
def CommentFormatter.getLineBlock (f : CommentFormatter) : Str :=
  let bp := match f.blockPre with
    | none => []
    | some [] => []
    | some p => "//".data ++ p ++ f.eol
  let bs := match f.blockSuf with
    | none => []
    | some [] => []
    | some sfx => f.eol ++ "//".data ++ sfx
  let lp := f.linePre.getD [' ']
  bp ++ joinWith f.eol (f.lines.map (fun l => trimEndStr ("//".data ++ lp ++ l))) ++ bs

/-- `CommentFormatter.getHtmlBlock`. -/
def CommentFormatter.getHtmlBlock (f : CommentFormatter) : Str :=
  let bp := f.blockPre.getD f.eol
  let bs := f.blockSuf.getD f.eol
  let lp := f.linePre.getD "  ".data
  "<!--".data ++ bp ++ joinWith f.eol (f.lines.map (fun l => trimEndStr (lp ++ l))) ++ bs
    ++ "-->".data

/-- `CommentFormatter.format(style)`, also returning the (possibly
consumed) formatter state. -/
def CommentFormatter.format (f : CommentFormatter) : Style → Str × CommentFormatter
  | .line => (f.getLineBlock, f)
  | .jsdoc => f.getJsdoc
  | .html => (f.getHtmlBlock, f)

/-! ## Round-trip pipeline (spec §8) -/

/-- The shape configuration shared by formatter and matcher (decorations
resolved by the orchestrating rule before either is constructed). -/
structure ShapeCfg where
  blockPre : Option Str
  blockSuf : Option Str
  linePre : Option Str
  eol : Str
  patterns : Option Registry

/-- How the host presents rendered text back as comment fragments: comment
node values exclude the comment delimiters.  For `line` style every
rendered line is a fragment with the leading `//` stripped; for `jsdoc`
(`/*` … `*/`) and `html` (`<!--` … `-->`) the single fragment is the text
between the delimiters. -/
def toFragments (style : Style) (s : Str) : List Str :=
  match style with
  | .line => (splitOnChar '\n' s).map (fun l => l.drop 2)
  | .jsdoc => [((s.drop 2).take ((s.drop 2).length - 2))]
  | .html => [((s.drop 4).take ((s.drop 4).length - 3))]

/-- Number of occurrences of registered placeholder `n` in `s`. -/
def phCount (n : Str) (s : Str) : Nat :=
  ((scanSegs s).filter (fun seg => seg = Seg.ph n)).length

/-- The pattern-value lists used when formatting with every pattern's
default value: one copy of the default per occurrence of the pattern in
the body text. -/
def defaultPVals (reg : Registry) (body : Str) : PVals :=
  reg.map (fun p => (p.1, List.replicate (phCount p.1 body) (p.2.defaultValue.getD [])))

/-- The formatter a round trip uses: the template lines and shape
configuration, with pattern values primed with each registered pattern's
default. -/
def roundTripFormatter (lines : List Str) (shape : ShapeCfg) : CommentFormatter :=
  let lp := shape.linePre.getD (" * ".data)
  let jsdocBody := joinWith shape.eol (lines.map (fun l => trimEndStr (lp ++ l)))
  { lines := lines
    blockPre := shape.blockPre
    blockSuf := shape.blockSuf
    linePre := shape.linePre
    eol := shape.eol
    patternValues := shape.patterns.map (fun reg => defaultPVals reg jsdocBody) }

/-- Spec §8 round trip: format the template under the shape configuration
(placeholders filled with each pattern's default value), split the rendered
text into host comment fragments, and feed those to a matcher configured
with the same template and shape configuration. -/
def roundTrip (style : Style) (lines : List Str) (shape : ShapeCfg) :
    Option (List (Str × List (Option Str))) :=
  let rendered := ((roundTripFormatter lines shape).format style).1
  let m := mkMatcher
    { blockPre := shape.blockPre
      blockSuf := shape.blockSuf
      linePre := shape.linePre
      style := style
      expectedLines := lines
      patterns := shape.patterns }
  m.matchComments (toFragments style rendered)

/-! ## The historical cursor-based matcher (part_011, third iteration)

This is the `CommentBlockMatcher` with `verifyPatternValues` /
`getCharacterValidationString` and the instance-attached `patternValues`
accumulator.  JavaScript exceptions (`TypeError` from dereferencing the
`null` result of a failed `exec`, `SyntaxError` from constructing a regex
with duplicate group names) and non-termination of the `tokensEndWith`
loop are explicit outcomes.  The `this.patternValues[...].push(...)`
side effects are collected as an ordered push list; the code never reads
`this.patternValues` during a match, so applying the pushes afterwards is
observationally identical. -/

inductive JsErr
  | typeError
  | syntaxError
deriving DecidableEq, Repr

/-- The outcome of running a piece of JavaScript: a value, a thrown
exception, or non-termination. -/
inductive JsOut (α : Type)
  | ok (a : α)
  | err (e : JsErr)
  | hang
deriving DecidableEq, Repr

/-- A recorded mismatch (`{type: "content"}` or
`{type: "pattern", value}`; ranges are irrelevant to the claims). -/
inductive Mismatch
  | content
  | pattern (value : Str)
deriving DecidableEq, Repr

abbrev Mismatches := List Mismatch

/-- One `this.patternValues[name].push(v)` call (`none` = `null`). -/
abbrev Push := Str × Option Str

/-- The instance accumulator: pattern name → values pushed so far. -/
abbrev PVDict := List (Str × List (Option Str))

/-- Constructor initialization: one empty list per configured pattern. -/
def initPatternValues (patterns : Option Registry) : PVDict :=
  (patterns.getD []).map (fun p => (p.1, ([] : List (Option Str))))

def pvPush (pv : PVDict) (n : Str) (v : Option Str) : PVDict :=
  pv.map (fun p => if p.1 = n then (p.1, p.2 ++ [v]) else p)

def applyPushes (pv : PVDict) (pushes : List Push) : PVDict :=
  pushes.foldl (fun acc pr => pvPush acc pr.1 pr.2) pv

/-- `getCharacterValidationString`: the literal scaffolding of the
expected string with every registered occurrence replaced by a named
wildcard group `(?<name>.*)`. -/
def charValidationAtoms (reg : Registry) (s : Str) : List Atom :=
  (markSegs reg s).map (fun m =>
    match m with
    | .lit t => alit t
    | .pat n => Atom.grp (some n) [SAtom.rep .dot 0 none])

/-- `CommentBlockMatcher.verifyPatternValues` (part_011 lines 920-952):
build the character-validation regex (`new RegExp` throws a `SyntaxError`
on duplicate group names), exec it against the actual string (the source
dereferences `patternValueMatches.groups` without a null check, so a
failed exec throws a `TypeError`), then re-validate each captured value
against its own pattern regex — unanchored, as `patternRegex.exec(value)`
is — pushing the value (or `null` on failure) onto
`this.patternValues[name]` and recording a `pattern` mismatch per failure.
Returns `none` for "no mismatches" (`undefined`). -/
def verifyPatternValues (reg : Registry) (s actual : Str) :
    JsOut (Option Mismatches) × List Push :=
  let names := patNames reg s
  if names.Nodup then
    match execSearch (charValidationAtoms reg s) actual with
    | none => (.err .typeError, [])
    | some caps =>
        let step := names.foldl (fun (acc : Mismatches × List Push) n =>
          let v := (capLookup n caps).getD []
          let pat := ((regFind reg n).map Pat.pattern).getD []
          if (execSearch (pat.map Atom.simple) v).isSome then
            (acc.1, acc.2 ++ [(n, some v)])
          else
            (acc.1 ++ [Mismatch.pattern v], acc.2 ++ [(n, none)]))
          (([], []) : Mismatches × List Push)
        (.ok (if step.1.isEmpty then none else some step.1), step.2)
  else (.err .syntaxError, [])

/-- `getEscapedPatternString`: escaped literal scaffolding with each
registered occurrence replaced by a capturing group holding the pattern's
own regex fragment (shared with the current matcher's
`processAndEscapeString`). -/
def escapedPatternAtoms (reg : Registry) (s : Str) : List Atom :=
  (markSegs reg s).map (fun m =>
    match m with
    | .lit t => alit t
    | .pat n => Atom.grp none (((regFind reg n).map Pat.pattern).getD []))

/-- `CommentBlockMatcher.matchStrings` (v3): exact comparison when the
expected string holds no registered pattern, otherwise
`verifyPatternValues` followed — only when it reports no mismatch — by the
anchored composite regex `^...$`. -/
def matchStringsV3 (patterns : Option Registry) (expected actual : Str) :
    JsOut (Option Mismatches) × List Push :=
  let reg := patterns.getD []
  if (patNames reg expected).isEmpty then
    (.ok (if expected = actual then none else some [Mismatch.content]), [])
  else
    let ver := verifyPatternValues reg expected actual
    match ver.1 with
    | .err e => (.err e, ver.2)
    | .hang => (.hang, ver.2)
    | .ok (some ms) => (.ok (some ms), ver.2)
    | .ok none =>
        let pass := (execFull (escapedPatternAtoms reg expected) actual).isSome
        (.ok (if pass then none else some [Mismatch.content]), ver.2)

/-- `matchStringStart` (v3): like `matchStrings` with `startsWith` /
`^...` instead of equality. -/
def matchStringStartV3 (patterns : Option Registry) (expected actual : Str) :
    JsOut (Option Mismatches) × List Push :=
  let reg := patterns.getD []
  if (patNames reg expected).isEmpty then
    (.ok (if expected.isPrefixOf actual then none else some [Mismatch.content]), [])
  else
    let ver := verifyPatternValues reg expected actual
    match ver.1 with
    | .err e => (.err e, ver.2)
    | .hang => (.hang, ver.2)
    | .ok (some ms) => (.ok (some ms), ver.2)
    | .ok none =>
        let pass := testStart (escapedPatternAtoms reg expected) actual
        (.ok (if pass then none else some [Mismatch.content]), ver.2)

/-- `matchStringEnd` (v3): like `matchStrings` with `endsWith` / `...$`. -/
def matchStringEndV3 (patterns : Option Registry) (expected actual : Str) :
    JsOut (Option Mismatches) × List Push :=
  let reg := patterns.getD []
  if (patNames reg expected).isEmpty then
    (.ok (if expected.isSuffixOf actual then none else some [Mismatch.content]), [])
  else
    let ver := verifyPatternValues reg expected actual
    match ver.1 with
    | .err e => (.err e, ver.2)
    | .hang => (.hang, ver.2)
    | .ok (some ms) => (.ok (some ms), ver.2)
    | .ok none =>
        let pass := testEnd (escapedPatternAtoms reg expected) actual
        (.ok (if pass then none else some [Mismatch.content]), ver.2)

/-- The `MatchInfo` record threaded through the cursor loops. -/
structure MatchInfoV3 where
  matchesFlag : Bool  -- `matches` in the source (a reserved word here)
  tokenIndex : Nat
  tokenCharacterIndex : Nat
  mismatches : Option Mismatches
deriving DecidableEq, Repr

/-- JavaScript `s.substring(a, b)` for `a ≤ b` (the end index clamps to
the string length). -/
def substringJs (s : Str) (a b : Nat) : Str :=
  (s.drop a).take (b - a)

/-- The `while` loop of `tokensStartWith` (v3, lines 668-715).  `fuel`
drives structural recursion; outside the pathological case of a
zero-length fragment entered with a nonzero `tokenCharacterIndex` (where
the JavaScript loop makes no progress) every iteration strictly decreases
`(tokens.length - tokenIndex) + (expected.length - characterIndex)`, and
callers supply fuel above that bound. -/
def tswLoop (patterns : Option Registry) (tokens : List Str) (expected : Str) :
    Nat → MatchInfoV3 → Nat → JsOut (MatchInfoV3 × Nat) × List Push
  | 0, _, _ => (.hang, [])
  | fuel + 1, info, characterIndex =>
      if info.tokenIndex < tokens.length ∧ characterIndex < expected.length then
        let remaining := expected.length - characterIndex
        let currentToken := (tokens.drop info.tokenIndex).headD []
        let tokLen := currentToken.length
        let branch :=
          if (remaining : Int) > (tokLen : Int) - (info.tokenCharacterIndex : Int) then
            let segment := substringJs expected characterIndex (characterIndex + tokLen)
            let tokenSubstring := currentToken.drop info.tokenCharacterIndex
            let mm := matchStringsV3 patterns segment tokenSubstring
            (mm, info.tokenCharacterIndex, characterIndex + tokLen)
          else
            let segment := expected.drop characterIndex
            let tokenSubstring := currentToken.drop info.tokenCharacterIndex
            let mm := matchStringStartV3 patterns segment tokenSubstring
            (mm, remaining, characterIndex + segment.length)
        match branch.1.1 with
        | .err e => (.err e, branch.1.2)
        | .hang => (.hang, branch.1.2)
        | .ok mm =>
            let info1 : MatchInfoV3 :=
              { matchesFlag := info.matchesFlag && mm.isNone
                tokenIndex := info.tokenIndex
                tokenCharacterIndex := branch.2.1
                mismatches := mm }
            let info2 :=
              if info1.tokenCharacterIndex = tokLen then
                { info1 with tokenIndex := info1.tokenIndex + 1, tokenCharacterIndex := 0 }
              else info1
            if !info2.matchesFlag then
              (.ok (info2, branch.2.2), branch.1.2)
            else
              let res := tswLoop patterns tokens expected fuel info2 branch.2.2
              (res.1, branch.1.2 ++ res.2)
      else
        (.ok (info, characterIndex), [])

/-- `CommentBlockMatcher.tokensStartWith` (v3, lines 652-725), including
the final "pattern is longer than tokens supplied" check. -/
def tokensStartWithV3 (patterns : Option Registry) (tokens : List Str)
    (expected : Str) (tokenIndex tokenCharacterIndex : Nat) :
    JsOut MatchInfoV3 × List Push :=
  let info0 : MatchInfoV3 :=
    { matchesFlag := true
      tokenIndex := tokenIndex
      tokenCharacterIndex := tokenCharacterIndex
      mismatches := none }
  if expected.length = 0 then
    (.ok info0, [])
  else
    let fuel := tokens.length + expected.length + 2
    match tswLoop patterns tokens expected fuel info0 0 with
    | (.err e, pushes) => (.err e, pushes)
    | (.hang, pushes) => (.hang, pushes)
    | (.ok (info, characterIndex), pushes) =>
        if characterIndex ≠ expected.length then
          (.ok { info with
                   matchesFlag := false
                   mismatches := some (info.mismatches.getD [Mismatch.content]) },
           pushes)
        else
          (.ok info, pushes)

/-- The `while` loop of `tokensEndWith` (v3, lines 745-775).  This loop
can genuinely fail to terminate (an empty fragment entered with a nonzero
`tokenCharacterIndex` makes no progress), so the fuel bound is essential:
`hang` models the JavaScript loop never finishing. -/
def tewLoop (patterns : Option Registry) (tokens : List Str) (expected : Str) :
    Nat → (Bool × Int × Nat × Option Mismatches) → Nat →
    JsOut ((Bool × Int × Nat × Option Mismatches) × Nat) × List Push
  | 0, _, _ => (.hang, [])
  | fuel + 1, st, characterIndex =>
      if st.2.1 ≥ 0 ∧ characterIndex > 0 then
        let currentToken := (tokens.drop st.2.1.toNat).headD []
        let tokLen := currentToken.length
        let branch :=
          if characterIndex > tokLen then
            let segment := substringJs expected (characterIndex - tokLen) characterIndex
            let mm := matchStringsV3 patterns segment currentToken
            (mm, st.2.2.1, characterIndex - tokLen)
          else
            let segment := expected.take characterIndex
            let mm := matchStringEndV3 patterns segment currentToken
            (mm, tokLen - segment.length, characterIndex - segment.length)
        match branch.1.1 with
        | .err e => (.err e, branch.1.2)
        | .hang => (.hang, branch.1.2)
        | .ok mm =>
            let matches1 := st.1 && mm.isNone
            let tci1 := branch.2.1
            let st2 : Bool × Int × Nat × Option Mismatches :=
              if tci1 = 0 then (matches1, st.2.1 - 1, tokLen, mm)
              else (matches1, st.2.1, tci1, mm)
            if !matches1 then
              (.ok (st2, branch.2.2), branch.1.2)
            else
              let res := tewLoop patterns tokens expected fuel st2 branch.2.2
              (res.1, branch.1.2 ++ res.2)
      else
        (.ok (st, characterIndex), [])

/-- `CommentBlockMatcher.tokensEndWith` (v3, lines 734-783).  The initial
state dereferences `tokens[tokens.length - 1].value`, so an empty token
list is a `TypeError`; the final `characterIndex !== 0` check sets
`matches = false` without recording a mismatch. -/
def tokensEndWithV3 (patterns : Option Registry) (tokens : List Str)
    (expected : Str) : JsOut MatchInfoV3 × List Push :=
  match tokens.getLast? with
  | none => (.err .typeError, [])
  | some lastTok =>
      let st0 : Bool × Int × Nat × Option Mismatches :=
        (true, (tokens.length : Int) - 1, lastTok.length, none)
      if expected.length = 0 then
        (.ok { matchesFlag := true
               tokenIndex := (tokens.length - 1 : Nat)
               tokenCharacterIndex := lastTok.length
               mismatches := none }, [])
      else
        let fuel := tokens.length + expected.length + 2
        match tewLoop patterns tokens expected fuel st0 expected.length with
        | (.err e, pushes) => (.err e, pushes)
        | (.hang, pushes) => (.hang, pushes)
        | (.ok (st, characterIndex), pushes) =>
            (.ok { matchesFlag := (st.1 && decide (characterIndex = 0))
                   tokenIndex := st.2.1.toNat
                   tokenCharacterIndex := st.2.2.1
                   mismatches := st.2.2.2 }, pushes)

/-- The per-line body loop of `match` (v3, lines 613-633): mismatches of a
line are concatenated onto the accumulated ones, and the loop stops at the
first line leaving mismatches behind. -/
def v3BodyLoop (patterns : Option Registry) (tokens : List Str) :
    List Str → MatchInfoV3 → JsOut MatchInfoV3 × List Push
  | [], info => (.ok info, [])
  | line :: rest, info =>
      let step := tokensStartWithV3 patterns tokens line
        info.tokenIndex info.tokenCharacterIndex
      match step.1 with
      | .err e => (.err e, step.2)
      | .hang => (.hang, step.2)
      | .ok newInfo =>
          let merged :=
            match info.mismatches, newInfo.mismatches with
            | some old, some ms => some (old ++ ms)
            | none, some ms => some ms
            | old, none => old
          let info' : MatchInfoV3 :=
            { matchesFlag := info.matchesFlag
              tokenIndex := newInfo.tokenIndex
              tokenCharacterIndex := newInfo.tokenCharacterIndex
              mismatches := merged }
          match merged with
          | some _ => (.ok { info' with matchesFlag := false }, step.2)
          | none =>
              let res := v3BodyLoop patterns tokens rest info'
              (res.1, step.2 ++ res.2)

/-- JavaScript `a || b` on possibly-undefined arrays (an array, even
empty, is truthy; the sources only ever store nonempty mismatch lists). -/
def optOr (a b : Option Mismatches) : Option Mismatches :=
  match a with
  | some x => some x
  | none => b

/-- The verdict of a v3 `match` call: the `mismatches` field of the
returned object (`none` = the comments satisfy the configuration). -/
def v3MatchCore (cfg : MatcherCfg) (comments : List Str) :
    JsOut (Option Mismatches) × List Push :=
  let bp := normCfgField cfg.blockPre
  let bs := normCfgField cfg.blockSuf
  let lp := normCfgField cfg.linePre
  let toks := normalizeComments comments
  let pre := tokensStartWithV3 cfg.patterns toks bp 0 0
  match pre.1 with
  | .err e => (.err e, pre.2)
  | .hang => (.hang, pre.2)
  | .ok preInfo =>
      let suf := tokensEndWithV3 cfg.patterns toks bs
      match suf.1 with
      | .err e => (.err e, pre.2 ++ suf.2)
      | .hang => (.hang, pre.2 ++ suf.2)
      | .ok sufInfo =>
          let lines0 := cfg.expectedLines.map (fun l => trimEndStr (lp ++ l))
          let lines := if cfg.style ≠ Style.line then [joinWith ['\n'] lines0] else lines0
          let body0 : MatchInfoV3 :=
            { matchesFlag := true
              tokenIndex := preInfo.tokenIndex
              tokenCharacterIndex := preInfo.tokenCharacterIndex
              mismatches := none }
          let body := v3BodyLoop cfg.patterns toks lines body0
          match body.1 with
          | .err e => (.err e, pre.2 ++ suf.2 ++ body.2)
          | .hang => (.hang, pre.2 ++ suf.2 ++ body.2)
          | .ok bodyInfo =>
              (.ok (optOr (optOr bodyInfo.mismatches preInfo.mismatches) sufInfo.mismatches),
               pre.2 ++ suf.2 ++ body.2)

/-- The v3 matcher instance: configuration plus the instance-attached
`patternValues` accumulator. -/
structure V3Matcher where
  cfg : MatcherCfg
  patternValues : PVDict

/-- `new CommentBlockMatcher(config)` (v3 constructor). -/
def mkV3Matcher (cfg : MatcherCfg) : V3Matcher :=
  { cfg := cfg, patternValues := initPatternValues cfg.patterns }

/-- The object `match` (v3) returns: the mismatches and the accumulated
`this.patternValues`. -/
structure V3MatchResult where
  mismatches : Option Mismatches
  patternValues : PVDict
deriving DecidableEq, Repr

/-- `CommentBlockMatcher.match` (v3, lines 588-643) as an operation on the
instance: the verdict together with the updated instance (pushes performed
before an exception or divergence still land in `this.patternValues`). -/
def V3Matcher.matchComments (m : V3Matcher) (comments : List Str) :
    JsOut V3MatchResult × V3Matcher :=
  let core := v3MatchCore m.cfg comments
  let pv' := applyPushes m.patternValues core.2
  let m' : V3Matcher := { m with patternValues := pv' }
  match core.1 with
  | .ok mm => (.ok { mismatches := mm, patternValues := pv' }, m')
  | .err e => (.err e, m')
  | .hang => (.hang, m')

/-! ## Pragma extraction and merge (`lib/index.js`, header-format rule) -/

/-- The directive-line regex `^[^\w]*(@\w.*)$` of the header-format rule,
for lines without line terminators.  A match needs a split point `k` with
only non-word characters before it, `@` at `k` and a word character right
after; since `@` itself is a non-word character, the only possible `k` is
the last position of the maximal leading non-word run (which is also what
the greedy `[^\w]*` backtracks to).  The capture is the text from that
`@` to the end of the line. -/
def pragmaCapture (line : Str) : Option Str :=
  let pre := line.takeWhile (fun c => !(isWordChar c))
  if pre ≠ [] ∧ pre.getLast? = some '@' ∧
      ((line.drop pre.length).head?.map isWordChar).getD false then
    some (line.drop (pre.length - 1))
  else
    none

/-- `lib/index.js` lines 479-496: the directive lines of the existing
header (in original order), and — only for `jsdoc` style with
`preservePragmas` set and at least one directive found — the formatter's
line list extended with one empty separator line followed by those
directive lines. -/
def mergedHeaderLines (style : Style) (preservePragmas : Bool)
    (templateLines : List Str) (headerCommentLines : List Str) : List Str :=
  let headerPragmas := headerCommentLines.filterMap pragmaCapture
  if style = Style.jsdoc ∧ preservePragmas = true ∧ headerPragmas ≠ [] then
    templateLines ++ ([] :: headerPragmas)
  else
    templateLines

/-- The replacement text the mismatch fixer produces
(`headerFormatter.format(style)` after the pragma merge above). -/
def synthesizedReplacement (f : CommentFormatter) (style : Style)
    (preservePragmas : Bool) (headerCommentLines : List Str) : Str :=
  let f' := { f with
    lines := mergedHeaderLines style preservePragmas f.lines headerCommentLines }
  (f'.format style).1

/-! ## `getDocblock` (`lib/utils.js`) -/

/-- JavaScript `String.prototype.indexOf(search, position)`: the least
index `i ≥ position` at which `search` occurs, else `-1`. -/
def indexOfFrom (s pat : Str) (pos : Nat) : Int :=
  match ((List.range (s.length + 1)).filter
      (fun i => pos ≤ i ∧ pat.isPrefixOf (s.drop i))).head? with
  | some i => (i : Int)
  | none => -1

/-- JavaScript `String.prototype.substring(a, b)`: negative indices clamp
to `0`, indices beyond the length clamp to the length, and the bounds are
swapped when out of order. -/
def substringJsInt (s : Str) (a b : Int) : Str :=
  let a' := min (max a 0).toNat s.length
  let b' := min (max b 0).toNat s.length
  (s.drop (min a' b')).take (max a' b' - min a' b')

/-- `getDocblock(text, position)` from `lib/utils.js`: the first `/*` and
`*/` occurrences at or after `position` (`-1` when absent), returning the
text between them (inclusive) and the end position when the `*/` index is
strictly greater, `null` otherwise. -/
def getDocblock (text : Str) (position : Nat) : Option (Str × Int) :=
  let startIdx := indexOfFrom text "/*".data position
  let endIdx := indexOfFrom text "*/".data position
  if endIdx > startIdx then
    some (substringJsInt text startIdx (endIdx + 2), endIdx + 2)
  else
    none

/-! ## General lemmas -/

theorem trimEndStr_append (a b : Str) :
    trimEndStr (a ++ b) =
      if trimEndStr b = [] then trimEndStr a else a ++ trimEndStr b := by
  unfold trimEndStr
  rw [List.reverse_append, List.dropWhile_append]
  by_cases h : (b.reverse.dropWhile jsWhite).isEmpty
  · simp only [h, if_true]
    have hb : b.reverse.dropWhile jsWhite = [] := by
      simpa [List.isEmpty_iff] using h
    simp [hb]
  · simp only [h, if_false]
    have hb : (b.reverse.dropWhile jsWhite).reverse ≠ [] := by
      simp [List.isEmpty_iff] at h
      simpa using h
    simp [hb, List.reverse_append]

theorem trimEndStr_eq_self (s : Str) (h : ∀ c, s.getLast? = some c → jsWhite c = false) :
    trimEndStr s = s := by
  unfold trimEndStr
  cases hs : s.reverse with
  | nil => simpa using congrArg List.reverse hs
  | cons c t =>
      have hc : s.getLast? = some c := by
        rw [← List.head?_reverse, hs]; rfl
      have := h c hc
      rw [List.dropWhile_cons, this]
      simpa using congrArg List.reverse hs.symm

/-- The characters `normalizeEol` rewrites. -/
def eolSpecial (c : Char) : Prop :=
  c = '\r' ∨ c = ' ' ∨ c = ' '

instance (c : Char) : Decidable (eolSpecial c) := by
  unfold eolSpecial
  infer_instance

/-- Strings free of carriage returns and Unicode line/paragraph
separators. -/
def noCR (s : Str) : Prop :=
  ∀ c ∈ s, ¬ eolSpecial c

instance (s : Str) : Decidable (noCR s) := by
  unfold noCR
  infer_instance

theorem normEolAux_eq_self {s : Str} (h : noCR s) : normEolAux false s = s := by
  induction s with
  | nil => rfl
  | cons c rest ih =>
      have hc : ¬ eolSpecial c := h c (List.mem_cons_self _ _)
      have hrest : noCR rest := fun d hd => h d (List.mem_cons_of_mem _ hd)
      have hcr : c ≠ '\r' := fun he => hc (Or.inl he)
      have h28 : ¬ (c = ' ' ∨ c = ' ') := fun he => hc (Or.inr he)
      by_cases hn : c = '\n'
      · subst hn
        simp [normEolAux, ih hrest]
      · simp [normEolAux, hcr, hn, h28, ih hrest]

theorem normalizeEol_eq_self {s : Str} (h : noCR s) : normalizeEol s = s :=
  normEolAux_eq_self h

theorem noCR_append {a b : Str} (ha : noCR a) (hb : noCR b) : noCR (a ++ b) := by
  intro c hc
  rcases List.mem_append.mp hc with h | h
  · exact ha c h
  · exact hb c h

theorem noCR_nil : noCR [] := by
  intro c hc
  cases hc

theorem noCR_newline : noCR ['\n'] := by
  intro c hc
  rw [List.mem_singleton] at hc
  subst hc
  decide

theorem noCR_of_sublist {a b : Str} (h : a.Sublist b) (hb : noCR b) : noCR a :=
  fun c hc => hb c (h.subset hc)

theorem noCR_trimEndStr {s : Str} (h : noCR s) : noCR (trimEndStr s) := by
  intro c hc
  apply h c
  unfold trimEndStr at hc
  have := (List.dropWhile_sublist (p := jsWhite) (l := s.reverse)).subset
  have hmem : c ∈ s.reverse := this (by simpa using hc)
  simpa using hmem

theorem noCR_joinWith {sep : Str} {xs : List Str} (hsep : noCR sep)
    (hxs : ∀ x ∈ xs, noCR x) : noCR (joinWith sep xs) := by
  induction xs with
  | nil => exact noCR_nil
  | cons x rest ih =>
      cases rest with
      | nil => exact hxs x (List.mem_cons_self _ _)
      | cons y t =>
          have hx : noCR x := hxs x (List.mem_cons_self _ _)
          have hrest : ∀ z ∈ y :: t, noCR z :=
            fun z hz => hxs z (List.mem_cons_of_mem _ hz)
          have : noCR (joinWith sep (y :: t)) := ih hrest
          exact noCR_append (noCR_append hx hsep) this

/-- The concatenated text of an all-literal atom sequence (`none` when a
group or repetition occurs). -/
def litsOnly : List Atom → Option Str
  | [] => some []
  | .simple (.lit t) :: rest => (litsOnly rest).map (fun L => t ++ L)
  | _ => none

theorem litsOnly_alit (t : Str) : litsOnly [alit t] = some t := by
  simp [litsOnly, alit]

theorem matchSeq_lits {as : List Atom} {L : Str} (h : litsOnly as = some L)
    (s : Str) :
    matchSeq as s = if L <+: s then [([], s.drop L.length)] else [] := by
  induction as generalizing L s with
  | nil =>
      simp only [litsOnly, Option.some.injEq] at h
      subst h
      simp [matchSeq]
  | cons a rest ih =>
      match a with
      | .grp nm inner => simp [litsOnly] at h
      | .simple (.rep cc lo hi) => simp [litsOnly] at h
      | .simple (.lit t) =>
          simp only [litsOnly, Option.map_eq_some'] at h
          obtain ⟨L', hL', rfl⟩ := h
          simp only [matchSeq, satomMatch]
          by_cases hp : t <+: s
          · obtain ⟨u, rfl⟩ := hp
            have hpre : t.isPrefixOf (t ++ u) = true := by
              simp
            have hdrop : (t ++ u).drop t.length = u := by
              simp
            simp only [hpre, if_true, hdrop, List.flatMap_cons, List.flatMap_nil,
              List.append_nil]
            rw [ih hL' u]
            have hiff : (t ++ L') <+: (t ++ u) ↔ L' <+: u :=
              List.prefix_append_right_inj t
            by_cases hu : L' <+: u
            · rw [if_pos hu, if_pos (hiff.mpr hu)]
              have : (t ++ u).drop (t ++ L').length = u.drop L'.length := by
                rw [List.length_append, ← List.drop_drop, hdrop]
              rw [this]
            · rw [if_neg hu, if_neg (fun hc => hu (hiff.mp hc))]
          · rw [if_neg (fun hc => hp ((List.prefix_append t L').trans hc))]
            have hpre : t.isPrefixOf s = false := by
              rw [Bool.eq_false_iff]
              intro hc
              exact hp (by simpa using hc)
            simp [hpre]

theorem testStart_lits {as : List Atom} {L : Str} (h : litsOnly as = some L)
    (s : Str) : testStart as s = decide (L <+: s) := by
  rw [testStart, matchSeq_lits h]
  by_cases hp : L <+: s
  · simp [hp]
  · simp [hp]

theorem fullResults_lits {as : List Atom} {L : Str} (h : litsOnly as = some L)
    (u : Str) : fullResults as u = if u = L then [([], [])] else [] := by
  rw [fullResults, matchSeq_lits h]
  by_cases hp : L <+: u
  · rw [if_pos hp]
    by_cases he : u.drop L.length = []
    · have hlen : u.length ≤ L.length := by
        have := congrArg List.length he
        simp at this
        omega
      have : u = L := (List.IsPrefix.eq_of_length_le hp hlen).symm
      simp [this, List.drop_length, he]
    · have : u ≠ L := by
        intro hc
        subst hc
        exact he (List.drop_length _)
      simp [List.isEmpty_iff, he, this]
  · have : u ≠ L := by
      intro hc
      subst hc
      exact hp (List.prefix_refl _)
    rw [if_neg hp, if_neg this]
    simp

theorem testEnd_lits {as : List Atom} {L : Str} (h : litsOnly as = some L)
    (s : Str) : testEnd as s = decide (L <:+ s) := by
  rw [Bool.eq_iff_iff, decide_eq_true_iff, testEnd, List.any_eq_true]
  constructor
  · rintro ⟨i, hi, hne⟩
    rw [fullResults_lits h] at hne
    by_cases hd : s.drop i = L
    · exact hd ▸ List.drop_suffix i s
    · simp [hd] at hne
  · intro hs
    refine ⟨s.length - L.length, by simp [List.mem_range]; omega, ?_⟩
    rw [fullResults_lits h, if_pos (List.suffix_iff_eq_drop.mp hs).symm]
    simp

theorem litsOnly_append {as bs : List Atom} {A B : Str}
    (ha : litsOnly as = some A) (hb : litsOnly bs = some B) :
    litsOnly (as ++ bs) = some (A ++ B) := by
  induction as generalizing A with
  | nil =>
      simp only [litsOnly, Option.some.injEq] at ha
      subst ha
      simpa using hb
  | cons a rest ih =>
      match a with
      | .grp nm inner => simp [litsOnly] at ha
      | .simple (.rep cc lo hi) => simp [litsOnly] at ha
      | .simple (.lit t) =>
          simp only [litsOnly, Option.map_eq_some'] at ha
          obtain ⟨A', hA', rfl⟩ := ha
          have hih := ih hA'
          show litsOnly (Atom.simple (SAtom.lit t) :: (rest ++ bs)) =
            some ((t ++ A') ++ B)
          simp [litsOnly, hih, List.append_assoc]

theorem litsOnly_joinParts {β : Type} {xs : List β} {f : β → List Atom}
    {g : β → Str} {sep : Str}
    (h : ∀ x ∈ xs, litsOnly (f x) = some (g x)) :
    litsOnly (joinParts [alit sep] (xs.map f)) =
      some (joinParts sep (xs.map g)) := by
  induction xs with
  | nil => simp [joinParts, litsOnly]
  | cons x rest ih =>
      cases rest with
      | nil =>
          simp only [List.map_cons, List.map_nil, joinParts]
          exact h x (List.mem_cons_self _ _)
      | cons y t =>
          have hx := h x (List.mem_cons_self _ _)
          have hrest : ∀ z ∈ y :: t, litsOnly (f z) = some (g z) :=
            fun z hz => h z (List.mem_cons_of_mem _ hz)
          have hih := ih hrest
          simp only [List.map_cons, joinParts] at hih ⊢
          have h1 := litsOnly_append hx (litsOnly_alit sep)
          have h2 := litsOnly_append h1 hih
          simpa [List.append_assoc] using h2

theorem trimEndAtoms_two_lits (a b : Str) :
    litsOnly (trimEndAtoms [alit a, alit b]) = some (trimEndStr (a ++ b)) := by
  rw [trimEndStr_append]
  by_cases hb : trimEndStr b = []
  · by_cases ha : trimEndStr a = []
    · simp [trimEndAtoms, trimEndAtomsAux, alit, hb, ha, litsOnly]
    · simp [trimEndAtoms, trimEndAtomsAux, alit, hb, ha, litsOnly]
  · simp [trimEndAtoms, trimEndAtomsAux, alit, hb, litsOnly]

theorem scanSegsF_congr (n : Nat) : ∀ (m : Nat) (s : Str),
    s.length ≤ n → s.length ≤ m → scanSegsF n s = scanSegsF m s := by
  induction n with
  | zero =>
      intro m s hn _
      have hs : s = [] := List.length_eq_zero.mp (by omega)
      subst hs
      cases m <;> rfl
  | succ n ih =>
      intro m s hn hm
      cases s with
      | nil => cases m <;> rfl
      | cons c rest =>
          cases m with
          | zero => simp at hm
          | succ m' =>
              simp only [scanSegsF]
              simp only [List.length_cons] at hn hm
              by_cases hc : c = '('
              · rw [if_pos hc, if_pos hc]
                by_cases hcond : (rest.takeWhile isWordChar ≠ [] ∧
                    (rest.drop (rest.takeWhile isWordChar).length).head? = some ')')
                · rw [if_pos hcond, if_pos hcond]
                  congr 1
                  apply ih
                  · simp only [List.length_drop]
                    omega
                  · simp only [List.length_drop]
                    omega
                · rw [if_neg hcond, if_neg hcond]
                  congr 1
                  apply ih <;> omega
              · rw [if_neg hc, if_neg hc]
                congr 1
                apply ih <;> omega

theorem scanSegs_cons (c : Char) (rest : Str) :
    scanSegs (c :: rest) =
      if c = '(' then
        (if rest.takeWhile isWordChar ≠ [] ∧
            (rest.drop (rest.takeWhile isWordChar).length).head? = some ')' then
          Seg.ph (rest.takeWhile isWordChar) ::
            scanSegs (rest.drop ((rest.takeWhile isWordChar).length + 1))
        else segCons c (scanSegs rest))
      else segCons c (scanSegs rest) := by
  show scanSegsF (rest.length + 1) (c :: rest) = _
  simp only [scanSegsF]
  by_cases hc : c = '('
  · rw [if_pos hc, if_pos hc]
    by_cases hcond : (rest.takeWhile isWordChar ≠ [] ∧
        (rest.drop (rest.takeWhile isWordChar).length).head? = some ')')
    · rw [if_pos hcond, if_pos hcond]
      congr 1
      apply scanSegsF_congr
      · simp only [List.length_drop]
        omega
      · exact le_refl _
    · rw [if_neg hcond, if_neg hcond]
      rfl
  · rw [if_neg hc, if_neg hc]
    rfl

theorem segCons_render (c : Char) (segs : List Seg) :
    ((segCons c segs).map Seg.render).flatten =
      c :: (segs.map Seg.render).flatten := by
  cases segs with
  | nil => rfl
  | cons sg rest =>
      cases sg with
      | lit t => simp [segCons, Seg.render]
      | ph n => simp [segCons, Seg.render]

theorem scanSegs_render (s : Str) :
    ((scanSegs s).map Seg.render).flatten = s := by
  have H : ∀ n (u : Str), u.length ≤ n →
      ((scanSegs u).map Seg.render).flatten = u := by
    intro n
    induction n with
    | zero =>
        intro u hu
        have : u = [] := List.length_eq_zero.mp (by omega)
        subst this
        rfl
    | succ n ih =>
        intro u hu
        cases u with
        | nil => rfl
        | cons c rest =>
            simp only [List.length_cons] at hu
            rw [scanSegs_cons]
            by_cases hc : c = '('
            · rw [if_pos hc]
              by_cases hcond : (rest.takeWhile isWordChar ≠ [] ∧
                  (rest.drop (rest.takeWhile isWordChar).length).head? = some ')')
              · rw [if_pos hcond]
                set w := rest.takeWhile isWordChar with hw
                have hwpre : w <+: rest := by
                  rw [hw]
                  exact List.takeWhile_prefix _
                have hdropw : rest.drop w.length = ')' :: rest.drop (w.length + 1) := by
                  have hhd := hcond.2
                  have htl : (rest.drop w.length).tail = rest.drop (w.length + 1) := by
                    rw [List.tail_drop]
                  cases hd : rest.drop w.length with
                  | nil => rw [hd] at hhd; cases hhd
                  | cons x xs =>
                      rw [hd] at hhd htl
                      simp only [List.head?_cons, Option.some.injEq] at hhd
                      simp only [List.tail_cons] at htl
                      rw [hhd, htl]
                have hrest : rest = w ++ ')' :: rest.drop (w.length + 1) := by
                  conv_lhs => rw [← List.take_append_drop w.length rest]
                  rw [hdropw]
                  congr 1
                  obtain ⟨t, ht⟩ := hwpre
                  rw [← ht, List.take_left]
                have hlen : (rest.drop (w.length + 1)).length ≤ n := by
                  simp only [List.length_drop]
                  omega
                simp only [List.map_cons, List.flatten_cons, Seg.render,
                  ih _ hlen]
                rw [hc]
                conv_rhs => rw [hrest]
                simp
              · rw [if_neg hcond, segCons_render, ih rest (by omega)]
            · rw [if_neg hc, segCons_render, ih rest (by omega)]
  exact H s.length s (le_refl _)

theorem litsOnly_cons_alit (t : Str) (xs : List Atom) :
    litsOnly (alit t :: xs) = (litsOnly xs).map (fun L => t ++ L) := rfl

theorem litsOnly_unreg_atoms (reg : Registry) (segs : List Seg)
    (h : ∀ n, Seg.ph n ∈ segs → (regFind reg n).isSome = false) :
    litsOnly ((segs.map (fun seg =>
        match seg with
        | .lit t => MSeg.lit t
        | .ph n => if (regFind reg n).isSome then MSeg.pat n
                   else MSeg.lit (Seg.render (.ph n)))).map (fun m =>
        match m with
        | .lit t => alit t
        | .pat n => Atom.grp none (((regFind reg n).map Pat.pattern).getD []))) =
      some ((segs.map Seg.render).flatten) := by
  induction segs with
  | nil => rfl
  | cons sg rest ih =>
      have hrest : ∀ n, Seg.ph n ∈ rest → (regFind reg n).isSome = false :=
        fun n hn => h n (List.mem_cons_of_mem _ hn)
      cases sg with
      | lit t =>
          simp only [List.map_cons, List.flatten_cons]
          show litsOnly (alit t :: _) = _
          rw [litsOnly_cons_alit, ih hrest]
          simp [Seg.render]
      | ph n =>
          have hn : (regFind reg n).isSome = false := h n (List.mem_cons_self _ _)
          simp only [List.map_cons, List.flatten_cons, hn, Bool.false_eq_true,
            if_false]
          show litsOnly (alit (Seg.render (.ph n)) :: _) = _
          rw [litsOnly_cons_alit, ih hrest]
          simp

/-- A literal atom consumes exactly its text from the front of the
input. -/
theorem satomMatch_lit {t s sr : Str}
    (h : sr ∈ satomMatch (SAtom.lit t) s) : s = t ++ sr := by
  simp only [satomMatch] at h
  by_cases hp : t.isPrefixOf s = true
  · rw [if_pos hp] at h
    rw [List.mem_singleton] at h
    subst h
    obtain ⟨u, hu⟩ := List.isPrefixOf_iff_prefix.mp hp
    subst hu
    rw [List.drop_left]
  · rw [if_neg hp] at h
    cases h

/-- Every way a group-free atom matches leaves a suffix of the input. -/
theorem satomMatch_suffix {sa : SAtom} {s sr : Str}
    (h : sr ∈ satomMatch sa s) : sr <:+ s := by
  cases sa with
  | lit t =>
      rw [satomMatch_lit h]
      exact List.suffix_append t sr
  | rep cc lo hi =>
      simp only [satomMatch, List.mem_map] at h
      obtain ⟨k, hk, rfl⟩ := h
      exact List.drop_suffix k s

/-- Every way a group-free fragment matches leaves a suffix of the
input. -/
theorem matchSimp_suffix {sas : List SAtom} :
    ∀ {s sr : Str}, sr ∈ matchSimp sas s → sr <:+ s := by
  induction sas with
  | nil =>
      intro s sr h
      simp only [matchSimp, List.mem_singleton] at h
      subst h
      exact List.suffix_refl _
  | cons sa rest ih =>
      intro s sr h
      simp only [matchSimp, List.mem_flatMap] at h
      obtain ⟨s1, hs1, hmem⟩ := h
      exact (ih hmem).trans (satomMatch_suffix hs1)

/-- If an atom sequence containing the escaped literal `t` matches a
string, `t` occurs in that string as a contiguous substring: escaped
literal text must be present byte-for-byte wherever the regex matches. -/
theorem matchSeq_lit_contains :
    ∀ (as : List Atom) (t s : Str) (caps : List Cap) (rest : Str),
      alit t ∈ as → (caps, rest) ∈ matchSeq as s → t <:+: s := by
  intro as
  induction as with
  | nil =>
      intro t s caps rest hmem hmatch
      cases hmem
  | cons a tl ih =>
      intro t s caps rest hmem hmatch
      cases a with
      | simple sa =>
          simp only [matchSeq, List.mem_flatMap] at hmatch
          obtain ⟨s1, hs1, h1⟩ := hmatch
          rcases List.mem_cons.mp hmem with he | hm
          · simp only [alit, Atom.simple.injEq] at he
            subst he
            rw [satomMatch_lit hs1]
            exact (List.prefix_append t s1).isInfix
          · exact (ih t s1 caps rest hm h1).trans
              (satomMatch_suffix hs1).isInfix
      | grp nm inner =>
          simp only [matchSeq, List.mem_flatMap, List.mem_map] at hmatch
          obtain ⟨s1, hs1, pr, hpr, heq⟩ := hmatch
          rcases List.mem_cons.mp hmem with he | hm
          · exact absurd he (by simp [alit])
          · exact (ih t s1 pr.1 pr.2 hm hpr).trans
              (matchSimp_suffix hs1).isInfix

/-- **C6.**  On *every* template line containing a parenthesized
identifier `(n)` whose name is not registered — including lines where it
coexists with registered placeholders — that text is treated as
regex-escaped literal text: the compiled atoms carry `(n)` as an escaped
literal, `n` enters no `patternOrder` slot (so no captured value is ever
produced for it), and any successful match of the compiled line regex
forces the actual content to contain `(n)` byte-for-byte. -/
theorem c6_unregistered_placeholder_is_literal (reg : Registry) (s n : Str)
    (hph : Seg.ph n ∈ scanSegs s) (hunreg : regFind reg n = none) :
    alit (Seg.render (.ph n)) ∈ (processAndEscapeString (some reg) s).1 ∧
    n ∉ (processAndEscapeString (some reg) s).2 ∧
    ∀ actual caps rest,
      (caps, rest) ∈ matchSeq (processAndEscapeString (some reg) s).1 actual →
      Seg.render (.ph n) <:+: actual := by
  have hmseg : MSeg.lit (Seg.render (.ph n)) ∈ markSegs reg s := by
    unfold markSegs
    refine List.mem_map.mpr ⟨Seg.ph n, hph, ?_⟩
    simp [hunreg]
  have hatom : alit (Seg.render (.ph n)) ∈
      (processAndEscapeString (some reg) s).1 := by
    simp only [processAndEscapeString]
    exact List.mem_map.mpr ⟨MSeg.lit (Seg.render (.ph n)), hmseg, rfl⟩
  refine ⟨hatom, ?_, ?_⟩
  · intro hn
    simp only [processAndEscapeString, List.mem_filterMap] at hn
    obtain ⟨m, hm, hsome⟩ := hn
    cases m with
    | lit t => simp at hsome
    | pat n2 =>
        have hn2 : n2 = n := by simpa using hsome
        subst hn2
        unfold markSegs at hm
        rw [List.mem_map] at hm
        obtain ⟨seg, hseg, heq⟩ := hm
        cases seg with
        | lit t => simp at heq
        | ph n3 =>
            by_cases hreg : (regFind reg n3).isSome = true
            · simp only [hreg, if_true, MSeg.pat.injEq] at heq
              subst heq
              rw [hunreg] at hreg
              cases hreg
            · simp [hreg] at heq
  · intro actual caps rest h
    exact matchSeq_lit_contains _ _ actual caps rest hatom h

/-- Registry and line for the C6 witness: `other` is registered, `(bad)`
is parenthetical prose coexisting with it on the same line. -/
def c6Reg : Registry :=
  [("other".data, ⟨[SAtom.rep CharClass.word 1 none], none⟩)]

def c6Line : Str :=
  "Licensed (other) says (bad)".data

/-- **C6 witness**: on the mixed line `Licensed (other) says (bad)` with
only `other` registered, `(bad)` compiles to an escaped literal atom,
`bad` gets no `patternOrder` slot while `other` does, the compiled regex
matches `Licensed Acme says (bad)` (capturing `Acme`), and that actual
text contains `(bad)` byte-for-byte. -/
theorem c6_witness :
    alit (Seg.render (.ph "bad".data)) ∈
      (processAndEscapeString (some c6Reg) c6Line).1 ∧
    "bad".data ∉ (processAndEscapeString (some c6Reg) c6Line).2 ∧
    "other".data ∈ (processAndEscapeString (some c6Reg) c6Line).2 ∧
    ([⟨none, "Acme".data⟩], ([] : Str)) ∈
      matchSeq (processAndEscapeString (some c6Reg) c6Line).1
        "Licensed Acme says (bad)".data ∧
    Seg.render (.ph "bad".data) <:+: "Licensed Acme says (bad)".data := by
  obtain ⟨h1, h2, h3⟩ := c6_unregistered_placeholder_is_literal c6Reg c6Line
    "bad".data (by decide) rfl
  have hmem : ([⟨none, "Acme".data⟩], ([] : Str)) ∈
      matchSeq (processAndEscapeString (some c6Reg) c6Line).1
        "Licensed Acme says (bad)".data := by
    decide
  exact ⟨h1, h2, by decide, hmem,
    h3 "Licensed Acme says (bad)".data [⟨none, "Acme".data⟩] [] hmem⟩

/-- The base formatter of the pragma experiment: template `Hi`, default
decorations. -/
def pragmaFmt : CommentFormatter :=
  { lines := ["Hi".data]
    blockPre := none
    blockSuf := none
    linePre := none
    eol := ['\n']
    patternValues := none }

/-- The header line carrying a directive in the pragma experiment. -/
def pragmaLine : Str :=
  " @preserve it".data

/-- **C8, amended.**  For `jsdoc` style with `preservePragmas` and at least
one directive line in the existing header, the synthesized line list is
exactly the template body, one empty separator line, then the stripped
directive lines verbatim in original order. -/
theorem c8_jsdoc_pragma_merge (templateLines headerCommentLines : List Str)
    (h : ∃ l ∈ headerCommentLines, (pragmaCapture l).isSome = true) :
    mergedHeaderLines Style.jsdoc true templateLines headerCommentLines =
      templateLines ++ ([] :: headerCommentLines.filterMap pragmaCapture) := by
  unfold mergedHeaderLines
  have hne : headerCommentLines.filterMap pragmaCapture ≠ [] := by
    obtain ⟨l, hl, hsome⟩ := h
    intro hc
    rw [List.filterMap_eq_nil_iff] at hc
    rw [hc l hl] at hsome
    cases hsome
  rw [if_pos ⟨rfl, rfl, hne⟩]

/-- **C8 witness**: a jsdoc header replacement for template `Hi` over a
header carrying `@preserve it` merges to
`["Hi", "", "@preserve it"]` and renders with the directive after the
body. -/
theorem c8_jsdoc_pragma_merge_witness :
    mergedHeaderLines Style.jsdoc true ["Hi".data] [pragmaLine] =
      ["Hi".data, [], "@preserve it".data] ∧
    synthesizedReplacement pragmaFmt Style.jsdoc true [pragmaLine] =
      "/**\n * Hi\n *\n * @preserve it\n */".data := by
  constructor
  · have := c8_jsdoc_pragma_merge ["Hi".data] [pragmaLine]
      ⟨pragmaLine, List.mem_cons_self _ _, by decide⟩
    rw [this]
    decide
  · decide

/-- The verdict part of a v3 `match` outcome (the `mismatches` field, or
the exception/divergence). -/
def v3Verdict : JsOut V3MatchResult → JsOut (Option Mismatches)
  | .ok r => .ok r.mismatches
  | .err e => .err e
  | .hang => .hang

/-- **C9, amended.**  Two successive `match` calls on the same v3 matcher
instance with the same fragments produce the same verdict (mismatches, or
the same exception/divergence), but captured pattern values accumulate:
one push list `δ` (a function of configuration and fragments only) is
appended to the instance's `patternValues` by each call. -/
theorem c9_amended_verdict_stable_values_accumulate (cfg : MatcherCfg)
    (comments : List Str) :
    v3Verdict (((mkV3Matcher cfg).matchComments comments).1) =
      v3Verdict ((((mkV3Matcher cfg).matchComments comments).2).matchComments
        comments).1 ∧
    ∃ δ : List Push,
      ((mkV3Matcher cfg).matchComments comments).2.patternValues =
        applyPushes (mkV3Matcher cfg).patternValues δ ∧
      ((((mkV3Matcher cfg).matchComments comments).2).matchComments
          comments).2.patternValues =
        applyPushes ((mkV3Matcher cfg).matchComments comments).2.patternValues
          δ := by
  constructor
  · cases hcore : (v3MatchCore cfg comments).1 with
    | ok mm => simp [V3Matcher.matchComments, v3Verdict, mkV3Matcher, hcore]
    | err e => simp [V3Matcher.matchComments, v3Verdict, mkV3Matcher, hcore]
    | hang => simp [V3Matcher.matchComments, v3Verdict, mkV3Matcher, hcore]
  · refine ⟨(v3MatchCore cfg comments).2, ?_, ?_⟩
    · cases hcore : (v3MatchCore cfg comments).1 with
      | ok mm => simp [V3Matcher.matchComments, mkV3Matcher, hcore]
      | err e => simp [V3Matcher.matchComments, mkV3Matcher, hcore]
      | hang => simp [V3Matcher.matchComments, mkV3Matcher, hcore]
    · cases hcore : (v3MatchCore cfg comments).1 with
      | ok mm => simp [V3Matcher.matchComments, mkV3Matcher, hcore]
      | err e => simp [V3Matcher.matchComments, mkV3Matcher, hcore]
      | hang => simp [V3Matcher.matchComments, mkV3Matcher, hcore]

theorem verify_shape {reg : Registry} {line tok : Str} {ms : Mismatches}
    {δ : List Push}
    (hver : verifyPatternValues reg line tok = (.ok (some ms), δ)) :
    patNames reg line ≠ [] ∧ ms ≠ [] ∧
    (δ.filter (fun p => p.2.isNone)).length = ms.length := by
  unfold verifyPatternValues at hver
  by_cases hnd : (patNames reg line).Nodup
  · rw [if_pos hnd] at hver
    cases hse : execSearch (charValidationAtoms reg line) tok with
    | none =>
        rw [hse] at hver
        simp at hver
    | some caps =>
        rw [hse] at hver
        dsimp only at hver
        have key : ∀ (names : List Str) (acc : Mismatches × List Push),
            (acc.2.filter (fun p => p.2.isNone)).length = acc.1.length →
            (((names.foldl (fun (acc : Mismatches × List Push) n =>
                if (execSearch
                    ((((regFind reg n).map Pat.pattern).getD []).map Atom.simple)
                    ((capLookup n caps).getD [])).isSome then
                  (acc.1, acc.2 ++ [(n, some ((capLookup n caps).getD []))])
                else
                  (acc.1 ++ [Mismatch.pattern ((capLookup n caps).getD [])],
                   acc.2 ++ [(n, none)])) acc).2).filter
              (fun p => p.2.isNone)).length =
            ((names.foldl (fun (acc : Mismatches × List Push) n =>
                if (execSearch
                    ((((regFind reg n).map Pat.pattern).getD []).map Atom.simple)
                    ((capLookup n caps).getD [])).isSome then
                  (acc.1, acc.2 ++ [(n, some ((capLookup n caps).getD []))])
                else
                  (acc.1 ++ [Mismatch.pattern ((capLookup n caps).getD [])],
                   acc.2 ++ [(n, none)])) acc).1).length := by
          intro names
          induction names with
          | nil =>
              intro acc hacc
              simpa using hacc
          | cons n rest ih =>
              intro acc hacc
              simp only [List.foldl_cons]
              apply ih
              by_cases hx : (execSearch
                  ((((regFind reg n).map Pat.pattern).getD []).map Atom.simple)
                  ((capLookup n caps).getD [])).isSome = true
              · rw [if_pos hx]
                simp [List.filter_append, hacc]
              · rw [if_neg hx]
                simp [List.filter_append, hacc]
        obtain ⟨m1, d1, hstepeq⟩ :
            ∃ m1 d1, (patNames reg line).foldl
              (fun (acc : Mismatches × List Push) n =>
                if (execSearch
                    ((((regFind reg n).map Pat.pattern).getD []).map Atom.simple)
                    ((capLookup n caps).getD [])).isSome then
                  (acc.1, acc.2 ++ [(n, some ((capLookup n caps).getD []))])
                else
                  (acc.1 ++ [Mismatch.pattern ((capLookup n caps).getD [])],
                   acc.2 ++ [(n, none)])) ([], []) = (m1, d1) :=
          ⟨_, _, rfl⟩
        rw [hstepeq] at hver
        have hkey := key (patNames reg line) ([], []) (by simp)
        rw [hstepeq] at hkey
        rw [Prod.mk.injEq] at hver
        obtain ⟨hv1, hv2⟩ := hver
        by_cases hemp : m1.isEmpty
        · rw [if_pos hemp] at hv1
          simp at hv1
        · rw [if_neg hemp] at hv1
          have hms : m1 = ms := by
            simpa using hv1
          have hnames : patNames reg line ≠ [] := by
            intro hn
            rw [hn] at hstepeq
            simp only [List.foldl_nil] at hstepeq
            rw [Prod.mk.injEq] at hstepeq
            apply hemp
            rw [← hstepeq.1]
            rfl
          refine ⟨hnames, ?_, ?_⟩
          · intro hmsnil
            apply hemp
            rw [hms, hmsnil]
            rfl
          · rw [← hv2, hkey, hms]
  · rw [if_neg hnd] at hver
    simp at hver

set_option maxHeartbeats 1600000 in
theorem tokensStartWithV3_single (reg : Registry) (line tok : Str)
    (ms : Mismatches) (δ : List Push)
    (hline : line ≠ []) (hlen : line.length ≤ tok.length)
    (hm : matchStringStartV3 (some reg) line tok = (.ok (some ms), δ)) :
    ∃ info : MatchInfoV3,
      tokensStartWithV3 (some reg) [tok] line 0 0 = (.ok info, δ) ∧
      info.mismatches = some ms ∧ info.matchesFlag = false := by
  have hlen0 : 0 < line.length := by
    cases line with
    | nil => exact absurd rfl hline
    | cons c r => simp
  obtain ⟨info2, hloop, hmm2, hflag⟩ :
      ∃ info2 : MatchInfoV3,
        tswLoop (some reg) [tok] line (line.length + 2 + 1)
          { matchesFlag := true, tokenIndex := 0, tokenCharacterIndex := 0,
            mismatches := none } 0 = (.ok (info2, line.length), δ) ∧
        info2.mismatches = some ms ∧ info2.matchesFlag = false := by
    simp only [tswLoop]
    rw [if_pos (show (0 : Nat) < ([tok] : List Str).length ∧ 0 < line.length from
      ⟨by simp, hlen0⟩)]
    rw [if_neg (show ¬ (((line.length - 0 : Nat) : Int) >
        (((([tok] : List Str).drop 0).headD []).length : Int) -
          ((0 : Nat) : Int)) from by
      simp only [List.drop_zero, List.headD_cons]
      push_cast
      omega)]
    simp only [List.drop_zero, List.headD_cons, hm]
    by_cases heq : line.length - 0 = tok.length
    · rw [if_pos heq]
      refine ⟨{ matchesFlag := true && (some ms).isNone,
                tokenIndex := 0 + 1,
                tokenCharacterIndex := 0,
                mismatches := some ms }, ?_, rfl, rfl⟩
      rw [show (0 + line.length : Nat) = line.length from by omega]
      rfl
    · rw [if_neg heq]
      refine ⟨{ matchesFlag := true && (some ms).isNone,
                tokenIndex := 0,
                tokenCharacterIndex := line.length - 0,
                mismatches := some ms }, ?_, rfl, rfl⟩
      rw [show (0 + line.length : Nat) = line.length from by omega]
      rfl
  simp only [tokensStartWithV3]
  rw [if_neg (by omega : ¬ line.length = 0)]
  rw [show ([tok] : List Str).length + line.length + 2 =
    line.length + 2 + 1 from by simp; omega]
  rw [hloop]
  dsimp only
  rw [if_neg (show ¬ (line.length ≠ line.length) from by omega)]
  exact ⟨info2, rfl, hmm2, hflag⟩

/-- **C4 (amended).**  When `verifyPatternValues` reports pattern
mismatches — some captured occurrence's raw text fails its pattern's own
regex on re-validation — `null` is recorded in that occurrence's slot of
the pushed values (exactly one `none` push per recorded mismatch), and no
exception is raised; but, contrary to the claim, the failure by itself
*does* force the overall result to be a mismatch: `match` returns exactly
those mismatches, before the prefix/body/suffix anchoring is ever
consulted.  Stated for a jsdoc-style configuration whose single template
line is matched against a single fragment at least as long. -/
theorem c4_amended_null_recorded_but_mismatch (reg : Registry)
    (line tok : Str) (ms : Mismatches) (d : List Push)
    (htok : normalizeEol tok = tok) (hline : trimEndStr line = line)
    (hlen : line.length ≤ tok.length)
    (hver : verifyPatternValues reg line tok = (.ok (some ms), d)) :
    v3MatchCore { blockPre := none, blockSuf := none, linePre := none,
                  style := Style.jsdoc, expectedLines := [line],
                  patterns := some reg } [tok] = (.ok (some ms), d) ∧
    (d.filter (fun p => p.2.isNone)).length = ms.length := by
  obtain ⟨hnames, hmsne, hcount⟩ := verify_shape hver
  refine ⟨?_, hcount⟩
  have hlinene : line ≠ [] := by
    intro h
    apply hnames
    rw [h]
    rfl
  have hne : (patNames reg line).isEmpty = false := by
    cases hpn : patNames reg line with
    | nil => exact absurd hpn hnames
    | cons a l => rfl
  have hm : matchStringStartV3 (some reg) line tok = (.ok (some ms), d) := by
    simp only [matchStringStartV3, Option.getD_some, hne, Bool.false_eq_true,
      if_false, hver]
  obtain ⟨info, hstep, hmm, hflag⟩ :=
    tokensStartWithV3_single reg line tok ms d hlinene hlen hm
  have htoks : normalizeComments [tok] = [tok] := by
    simp only [normalizeComments, List.map, htok]
  have hjoin : joinWith ['\n'] [line] = line := rfl
  have hpre : tokensStartWithV3 (some reg) [tok] ([] : Str) 0 0 =
      (.ok { matchesFlag := true, tokenIndex := 0, tokenCharacterIndex := 0,
             mismatches := none }, []) := rfl
  have hsuf : tokensEndWithV3 (some reg) [tok] ([] : Str) =
      (.ok { matchesFlag := true, tokenIndex := 0,
             tokenCharacterIndex := tok.length, mismatches := none }, []) := rfl
  have hbody : v3BodyLoop (some reg) [tok] [line]
      { matchesFlag := true, tokenIndex := 0, tokenCharacterIndex := 0,
        mismatches := none } =
      (.ok { matchesFlag := false, tokenIndex := info.tokenIndex,
             tokenCharacterIndex := info.tokenCharacterIndex,
             mismatches := some ms }, d) := by
    simp only [v3BodyLoop, hstep, hmm]
  simp only [v3MatchCore, htoks, normCfgField, hpre, hsuf, List.map,
    List.nil_append, hline, hjoin, ite_self, hbody, optOr, ne_eq, reduceIte]

/-- Normalizing a present configuration field without special line
terminators leaves it unchanged. -/
theorem normCfgField_some_of_noCR {s : Str} (h : noCR s) :
    normCfgField (some s) = s := by
  show (if s = [] then [] else normalizeEol s) = s
  by_cases hs : s = []
  · rw [if_pos hs, hs]
  · rw [if_neg hs, normalizeEol_eq_self h]

theorem mkMatcher_body_none (obp obs olp : Option Str) (st : Style)
    (lines : List Str) :
    (mkMatcher { blockPre := obp, blockSuf := obs, linePre := olp,
                 style := st, expectedLines := lines,
                 patterns := none }).bodyAtoms =
      alit (normCfgField obp) ::
        joinParts [alit ['\n']] (lines.map (fun line =>
          trimEndAtoms [alit (normCfgField olp), alit line])) := by
  simp only [mkMatcher, processAndEscapeString, List.map_map]
  rfl

theorem mkMatcher_suf_none (obp obs olp : Option Str) (st : Style)
    (lines : List Str) :
    (mkMatcher { blockPre := obp, blockSuf := obs, linePre := olp,
                 style := st, expectedLines := lines,
                 patterns := none }).sufAtoms =
      [alit (normCfgField obs)] := by
  simp only [mkMatcher, processAndEscapeString]

/-- `match` over all-literal prebuilt regexes is prefix/suffix testing of
the concatenated literal text, and the returned dictionary is empty. -/
theorem matchComments_lits {m : CommentBlockMatcher} {B S : Str}
    (hB : litsOnly m.bodyAtoms = some B) (hS : litsOnly m.sufAtoms = some S)
    (frags : List Str) :
    m.matchComments frags =
      (if B <+: joinWith ['\n'] (normalizeComments frags) ∧
          S <:+ joinWith ['\n'] (normalizeComments frags)
       then some [] else none) := by
  simp only [CommentBlockMatcher.matchComments]
  rw [testStart_lits hB, testEnd_lits hS]
  by_cases h1 : B <+: joinWith ['\n'] (normalizeComments frags) <;>
    by_cases h2 : S <:+ joinWith ['\n'] (normalizeComments frags) <;>
    simp [h1, h2, patternValuesOfOrder]

/-- `trimEnd` leaves a `//` prefix intact (`/` is not whitespace). -/
theorem trimEndStr_dslash (x : Str) :
    trimEndStr ("//".data ++ x) = "//".data ++ trimEndStr x := by
  rw [trimEndStr_append]
  by_cases h : trimEndStr x = []
  · rw [if_pos h, h, List.append_nil]
    decide
  · rw [if_neg h]

theorem splitOnChar_not_mem {sep : Char} {s : Str} (h : sep ∉ s) :
    splitOnChar sep s = [s] := by
  induction s with
  | nil => rfl
  | cons c rest ih =>
      have hc : ¬ c = sep := fun hk => h (hk ▸ List.mem_cons_self c rest)
      have hr : sep ∉ rest := fun hk => h (List.mem_cons_of_mem _ hk)
      simp only [splitOnChar, ih hr, if_neg hc]
      rfl

theorem splitOnChar_append_cons (sep : Char) {x : Str} (z : Str)
    (h : sep ∉ x) :
    splitOnChar sep (x ++ sep :: z) = x :: splitOnChar sep z := by
  induction x with
  | nil =>
      show splitOnChar sep (sep :: z) = [] :: splitOnChar sep z
      simp [splitOnChar]
  | cons c rest ih =>
      have hc : ¬ c = sep := fun hk => h (hk ▸ List.mem_cons_self c rest)
      have hr : sep ∉ rest := fun hk => h (List.mem_cons_of_mem _ hk)
      show splitOnChar sep (c :: (rest ++ sep :: z)) =
        (c :: rest) :: splitOnChar sep z
      simp only [splitOnChar, ih hr, if_neg hc]
      rfl

/-- JavaScript `join`/`split` inverse: splitting a nonempty join on a
separator absent from every part recovers the parts. -/
theorem splitOnChar_joinWith (sep : Char) (parts : List Str)
    (hne : parts ≠ []) (h : ∀ p ∈ parts, sep ∉ p) :
    splitOnChar sep (joinWith [sep] parts) = parts := by
  induction parts with
  | nil => exact absurd rfl hne
  | cons x rest ih =>
      cases rest with
      | nil =>
          show splitOnChar sep (joinParts [sep] [x]) = [x]
          exact splitOnChar_not_mem (h x (List.mem_cons_self _ _))
      | cons y t =>
          have hx : sep ∉ x := h x (List.mem_cons_self _ _)
          have hr := ih (by simp) (fun p hp => h p (List.mem_cons_of_mem _ hp))
          show splitOnChar sep (x ++ [sep] ++ joinParts [sep] (y :: t)) =
            x :: y :: t
          rw [List.append_assoc]
          have hcons : ([sep] ++ joinParts [sep] (y :: t) : Str) =
            sep :: joinParts [sep] (y :: t) := rfl
          rw [hcons, splitOnChar_append_cons sep _ hx]
          exact congrArg _ hr

/-- Host fragment extraction for a rendered `jsdoc` block: the text
between the `/*` and `*/` delimiters. -/
theorem toFragments_jsdoc3 (a b c : Str) :
    toFragments Style.jsdoc
      ("/*".data ++ (a ++ (b ++ (c ++ "*/".data)))) = [a ++ (b ++ c)] := by
  simp only [toFragments]
  have hd : ("/*".data ++ (a ++ (b ++ (c ++ "*/".data)))).drop 2
      = (a ++ (b ++ c)) ++ "*/".data := by
    show a ++ (b ++ (c ++ "*/".data)) = (a ++ (b ++ c)) ++ "*/".data
    simp [List.append_assoc]
  rw [hd, List.length_append]
  have h2 : ("*/".data).length = 2 := rfl
  rw [h2, Nat.add_sub_cancel, List.take_left]

/-- Host fragment extraction for a rendered `html` block: the text
between the `<!--` and `-->` delimiters. -/
theorem toFragments_html3 (a b c : Str) :
    toFragments Style.html
      ("<!--".data ++ (a ++ (b ++ (c ++ "-->".data)))) = [a ++ (b ++ c)] := by
  simp only [toFragments]
  have hd : ("<!--".data ++ (a ++ (b ++ (c ++ "-->".data)))).drop 4
      = (a ++ (b ++ c)) ++ "-->".data := by
    show a ++ (b ++ (c ++ "-->".data)) = (a ++ (b ++ c)) ++ "-->".data
    simp [List.append_assoc]
  rw [hd, List.length_append]
  have h3 : ("-->".data).length = 3 := rfl
  rw [h3, Nat.add_sub_cancel, List.take_left]

/-- A character of the right-trimmed string occurs in the string. -/
theorem mem_of_mem_trimEndStr {s : Str} {c : Char}
    (h : c ∈ trimEndStr s) : c ∈ s := by
  unfold trimEndStr at h
  have hsub := (List.dropWhile_sublist (p := jsWhite) (l := s.reverse)).subset
  have hc : c ∈ s.reverse := hsub (by simpa using h)
  simpa using hc

theorem mkMatcher_body_none2 (cfg : MatcherCfg) (h : cfg.patterns = none) :
    (mkMatcher cfg).bodyAtoms =
      alit (normCfgField cfg.blockPre) ::
        joinParts [alit ['\n']] (cfg.expectedLines.map (fun line =>
          trimEndAtoms [alit (normCfgField cfg.linePre), alit line])) := by
  obtain ⟨obp, obs, olp, st, ls, pats⟩ := cfg
  cases h
  exact mkMatcher_body_none obp obs olp st ls

theorem mkMatcher_suf_none2 (cfg : MatcherCfg) (h : cfg.patterns = none) :
    (mkMatcher cfg).sufAtoms = [alit (normCfgField cfg.blockSuf)] := by
  obtain ⟨obp, obs, olp, st, ls, pats⟩ := cfg
  cases h
  exact mkMatcher_suf_none obp obs olp st ls

/-- The pattern-free shape configuration of the amended round trip. -/
def c1Shape (bp bs lp : Str) : ShapeCfg :=
  { blockPre := some bp
    blockSuf := some bs
    linePre := some lp
    eol := ['\n']
    patterns := none }

/-- The matcher configuration the round trip builds from `c1Shape`. -/
def c1MCfg (style : Style) (lines : List Str) (bp bs lp : Str) : MatcherCfg :=
  { blockPre := some bp
    blockSuf := some bs
    linePre := some lp
    style := style
    expectedLines := lines
    patterns := none }

/-- **C1 (amended).**  The round trip does hold — for each of the three
styles — when no patterns are registered: formatting the template `lines`
under a shape configuration whose decoration fields are resolved strings
free of carriage-return/Unicode-separator characters, with eol `\n`,
splitting the rendered text into host comment fragments, and re-matching
with the same template and configuration reports a match (the empty
captured-value dictionary).  For `line` style the block prefix and suffix
must be empty and the line prefix and template lines free of `\n` (the
rendered block is a run of `//` line comments, one fragment each). -/
theorem c1_roundtrip_no_patterns (style : Style) (lines : List Str)
    (bp bs lp : Str)
    (hbp : noCR bp) (hbs : noCR bs) (hlp : noCR lp)
    (hlines : ∀ l ∈ lines, noCR l)
    (hlstyle : style = Style.line →
      bp = [] ∧ bs = [] ∧ '\n' ∉ lp ∧ ∀ l ∈ lines, '\n' ∉ l) :
    roundTrip style lines (c1Shape bp bs lp) = some [] := by
  have hlpl : ∀ l ∈ lines, noCR (trimEndStr (lp ++ l)) := fun l hl =>
    noCR_trimEndStr (noCR_append hlp (hlines l hl))
  have hbodyCR :
      noCR (joinWith ['\n'] (lines.map (fun l => trimEndStr (lp ++ l)))) := by
    refine noCR_joinWith noCR_newline ?_
    intro x hx
    obtain ⟨l, hl, rfl⟩ := List.mem_map.mp hx
    exact hlpl l hl
  have hB : litsOnly (mkMatcher (c1MCfg style lines bp bs lp)).bodyAtoms =
      some (bp ++ joinWith ['\n']
        (lines.map (fun l => trimEndStr (lp ++ l)))) := by
    rw [mkMatcher_body_none2 _ rfl]
    simp only [c1MCfg]
    rw [normCfgField_some_of_noCR hbp, normCfgField_some_of_noCR hlp]
    have h := @litsOnly_joinParts Str lines
      (fun line => trimEndAtoms [alit lp, alit line])
      (fun line => trimEndStr (lp ++ line)) ['\n']
      (fun l hl => trimEndAtoms_two_lits lp l)
    rw [litsOnly_cons_alit, h]
    rfl
  have hS : litsOnly (mkMatcher (c1MCfg style lines bp bs lp)).sufAtoms =
      some bs := by
    rw [mkMatcher_suf_none2 _ rfl]
    simp only [c1MCfg]
    rw [normCfgField_some_of_noCR hbs, litsOnly_alit]
  cases style with
  | jsdoc =>
      have hrend : ((roundTripFormatter lines (c1Shape bp bs lp)).format
            Style.jsdoc).1
          = "/*".data ++ (bp ++ ((joinWith ['\n'] (lines.map (fun l =>
              trimEndStr (lp ++ l)))) ++ (bs ++ "*/".data))) := by
        simp only [roundTripFormatter, c1Shape, CommentFormatter.format,
          CommentFormatter.getJsdoc, Option.map_none', Option.getD_some]
        simp [List.append_assoc]
      show (mkMatcher (c1MCfg Style.jsdoc lines bp bs lp)).matchComments
        (toFragments Style.jsdoc ((roundTripFormatter lines
          (c1Shape bp bs lp)).format Style.jsdoc).1) = some []
      rw [hrend, toFragments_jsdoc3, matchComments_lits hB hS]
      have hfragCR : noCR (bp ++ ((joinWith ['\n'] (lines.map (fun l =>
          trimEndStr (lp ++ l)))) ++ bs)) :=
        noCR_append hbp (noCR_append hbodyCR hbs)
      have hC : joinWith ['\n'] (normalizeComments
          [bp ++ ((joinWith ['\n'] (lines.map (fun l =>
            trimEndStr (lp ++ l)))) ++ bs)]) =
          bp ++ ((joinWith ['\n'] (lines.map (fun l =>
            trimEndStr (lp ++ l)))) ++ bs) := by
        show joinWith ['\n'] [normalizeEol (bp ++ ((joinWith ['\n']
          (lines.map (fun l => trimEndStr (lp ++ l)))) ++ bs))] = _
        rw [normalizeEol_eq_self hfragCR]
        rfl
      have hpre : bp ++ joinWith ['\n'] (lines.map (fun l =>
          trimEndStr (lp ++ l))) <+:
          bp ++ ((joinWith ['\n'] (lines.map (fun l =>
            trimEndStr (lp ++ l)))) ++ bs) := by
        rw [← List.append_assoc]
        exact List.prefix_append _ _
      have hsuf : bs <:+ bp ++ ((joinWith ['\n'] (lines.map (fun l =>
          trimEndStr (lp ++ l)))) ++ bs) := by
        rw [← List.append_assoc]
        exact List.suffix_append _ _
      rw [hC, if_pos ⟨hpre, hsuf⟩]
  | html =>
      have hrend : ((roundTripFormatter lines (c1Shape bp bs lp)).format
            Style.html).1
          = "<!--".data ++ (bp ++ ((joinWith ['\n'] (lines.map (fun l =>
              trimEndStr (lp ++ l)))) ++ (bs ++ "-->".data))) := by
        simp only [roundTripFormatter, c1Shape, CommentFormatter.format,
          CommentFormatter.getHtmlBlock, Option.getD_some]
        simp [List.append_assoc]
      show (mkMatcher (c1MCfg Style.html lines bp bs lp)).matchComments
        (toFragments Style.html ((roundTripFormatter lines
          (c1Shape bp bs lp)).format Style.html).1) = some []
      rw [hrend, toFragments_html3, matchComments_lits hB hS]
      have hfragCR : noCR (bp ++ ((joinWith ['\n'] (lines.map (fun l =>
          trimEndStr (lp ++ l)))) ++ bs)) :=
        noCR_append hbp (noCR_append hbodyCR hbs)
      have hC : joinWith ['\n'] (normalizeComments
          [bp ++ ((joinWith ['\n'] (lines.map (fun l =>
            trimEndStr (lp ++ l)))) ++ bs)]) =
          bp ++ ((joinWith ['\n'] (lines.map (fun l =>
            trimEndStr (lp ++ l)))) ++ bs) := by
        show joinWith ['\n'] [normalizeEol (bp ++ ((joinWith ['\n']
          (lines.map (fun l => trimEndStr (lp ++ l)))) ++ bs))] = _
        rw [normalizeEol_eq_self hfragCR]
        rfl
      have hpre : bp ++ joinWith ['\n'] (lines.map (fun l =>
          trimEndStr (lp ++ l))) <+:
          bp ++ ((joinWith ['\n'] (lines.map (fun l =>
            trimEndStr (lp ++ l)))) ++ bs) := by
        rw [← List.append_assoc]
        exact List.prefix_append _ _
      have hsuf : bs <:+ bp ++ ((joinWith ['\n'] (lines.map (fun l =>
          trimEndStr (lp ++ l)))) ++ bs) := by
        rw [← List.append_assoc]
        exact List.suffix_append _ _
      rw [hC, if_pos ⟨hpre, hsuf⟩]
  | line =>
      obtain ⟨rfl, rfl, hlpn, hlinesn⟩ := hlstyle rfl
      have hrend : ((roundTripFormatter lines (c1Shape [] [] lp)).format
            Style.line).1
          = joinWith ['\n'] (lines.map (fun l =>
              "//".data ++ trimEndStr (lp ++ l))) := by
        simp only [roundTripFormatter, c1Shape, CommentFormatter.format,
          CommentFormatter.getLineBlock, Option.getD_some]
        rw [List.nil_append, List.append_nil]
        congr 1
        apply List.map_congr_left
        intro l hl
        rw [List.append_assoc, trimEndStr_dslash]
      show (mkMatcher (c1MCfg Style.line lines [] [] lp)).matchComments
        (toFragments Style.line ((roundTripFormatter lines
          (c1Shape [] [] lp)).format Style.line).1) = some []
      rw [hrend]
      by_cases hnil : lines = []
      · subst hnil
        rw [matchComments_lits hB hS]
        simp [toFragments, normalizeComments, joinWith, joinParts,
          splitOnChar, normalizeEol, normEolAux]
      · have hpartsne : lines.map (fun l =>
            "//".data ++ trimEndStr (lp ++ l)) ≠ [] := by
          simpa using hnil
        have hpartsnl : ∀ p ∈ lines.map (fun l =>
            "//".data ++ trimEndStr (lp ++ l)), '\n' ∉ p := by
          intro p hp
          obtain ⟨l, hl, rfl⟩ := List.mem_map.mp hp
          intro hmem
          rcases List.mem_append.mp hmem with h1 | h1
          · exact absurd h1 (by decide)
          · rcases List.mem_append.mp (mem_of_mem_trimEndStr h1) with h2 | h2
            · exact hlpn h2
            · exact hlinesn l hl h2
        have hfrags : toFragments Style.line (joinWith ['\n']
            (lines.map (fun l => "//".data ++ trimEndStr (lp ++ l)))) =
            lines.map (fun l => trimEndStr (lp ++ l)) := by
          simp only [toFragments]
          rw [splitOnChar_joinWith '\n' _ hpartsne hpartsnl, List.map_map]
          apply List.map_congr_left
          intro l hl
          rfl
        have hnorm : normalizeComments (lines.map (fun l =>
            trimEndStr (lp ++ l))) =
            lines.map (fun l => trimEndStr (lp ++ l)) := by
          simp only [normalizeComments, List.map_map]
          apply List.map_congr_left
          intro l hl
          exact normalizeEol_eq_self (hlpl l hl)
        rw [hfrags, matchComments_lits hB hS, hnorm]
        rw [if_pos ⟨by simp, by simp⟩]

/-- **C1 (amended), witness.**  The amended round trip instantiated at a
concrete jsdoc-style shape: block prefix `A`, block suffix `B`, line
prefix ` * `, template line `Hi`, no patterns. -/
theorem c1_roundtrip_no_patterns_witness :
    roundTrip Style.jsdoc ["Hi".data]
      (c1Shape "A".data "B".data " * ".data) = some [] :=
  c1_roundtrip_no_patterns Style.jsdoc ["Hi".data]
    "A".data "B".data " * ".data
    (by decide) (by decide) (by decide) (by decide)
    (fun h => absurd h (by decide))

/-! ## Concrete scenario data -/

/-- Scenario C of the spec: registry `{company: {pattern: "\w+"}}`. -/
def scenCReg : Registry :=
  [("company".data, ⟨[SAtom.rep CharClass.word 1 none], none⟩)]

/-- Scenario C matcher configuration: template line
`"Copyright (company). All rights reserved."`, no decorations. -/
def scenCCfg : MatcherCfg :=
  { blockPre := none
    blockSuf := none
    linePre := none
    style := Style.jsdoc
    expectedLines := ["Copyright (company). All rights reserved.".data]
    patterns := some scenCReg }

/-- Scenario C actual comment text. -/
def scenCActual : Str :=
  "Copyright Acme. All rights reserved.".data

/-- A formatter whose pattern-value state holds one value for one
placeholder occurrence (for the repeated-format experiment). -/
def fmtRepeat : CommentFormatter :=
  { lines := ["Copyright (company).".data]
    blockPre := none
    blockSuf := none
    linePre := none
    eol := ['\n']
    patternValues := some [("company".data, ["Acme".data])] }

/-- Registry for the pattern-revalidation experiment:
`p: \w+`, `q: \d-\d`. -/
def revalReg : Registry :=
  [("p".data, ⟨[SAtom.rep CharClass.word 1 none], none⟩),
   ("q".data, ⟨[SAtom.rep CharClass.digit 1 (some 1), SAtom.lit ['-'],
               SAtom.rep CharClass.digit 1 (some 1)], none⟩)]

/-- Matcher configuration whose single template line is `(p)-(q)`. -/
def revalCfg : MatcherCfg :=
  { blockPre := none
    blockSuf := none
    linePre := none
    style := Style.jsdoc
    expectedLines := ["(p)-(q)".data]
    patterns := some revalReg }

/-- Registry with one digit pattern `p: \d+`. -/
def digitReg : Registry :=
  [("p".data, ⟨[SAtom.rep CharClass.digit 1 none], none⟩)]

/-- Configuration whose template `ab(p)cd` is longer than the supplied
fragment text `xx123`. -/
def tooLongCfg : MatcherCfg :=
  { blockPre := none
    blockSuf := none
    linePre := none
    style := Style.jsdoc
    expectedLines := ["ab(p)cd".data]
    patterns := some digitReg }

/-- Configuration for the double-match experiment: template `Date (y)`
with `y: \d+`. -/
def dblCfg : MatcherCfg :=
  { blockPre := none
    blockSuf := none
    linePre := none
    style := Style.jsdoc
    expectedLines := ["Date (y)".data]
    patterns := some [("y".data, ⟨[SAtom.rep CharClass.digit 1 none], none⟩)] }

/-- Shape configuration with resolved jsdoc decorations and a `year`
pattern (`\d{4}`) whose default value `TBD` does not satisfy the
pattern. -/
def tbdShape : ShapeCfg :=
  { blockPre := some "*\n".data
    blockSuf := some "\n ".data
    linePre := some " * ".data
    eol := ['\n']
    patterns := some [("year".data,
      ⟨[SAtom.rep CharClass.digit 4 (some 4)], some "TBD".data⟩)] }

/-! ## Claim theorems: concrete evaluations -/

/-- Fragments for the C7 witness: the same jsdoc header text with CRLF
and with LF line breaks. -/
def c7CrlfFrags : List Str :=
  ["*\r\n * Line1\r\n * Line2\r\n ".data]

def c7LfFrags : List Str :=
  ["*\n * Line1\n * Line2\n ".data]

def c7Cfg : MatcherCfg :=
  { blockPre := some "*\n".data
    blockSuf := some "\n ".data
    linePre := some " * ".data
    style := Style.jsdoc
    expectedLines := ["Line1".data, "Line2".data]
    patterns := none }

/-- **C7.**  Matching is invariant under end-of-line representation: two
comment-fragment sequences whose texts agree after EOL normalization (as
CRLF/LF/CR/U+2028/U+2029 variants of the same text do) produce the same
match result, for every matcher configuration — `match` reads the
fragments only through `normalizeComments`. -/
theorem c7_eol_invariance (cfg : MatcherCfg) (c1 c2 : List Str)
    (h : normalizeComments c1 = normalizeComments c2) :
    (mkMatcher cfg).matchComments c1 = (mkMatcher cfg).matchComments c2 := by
  unfold CommentBlockMatcher.matchComments
  rw [h]

/-- **C7 witness**: a CRLF and an LF rendering of the same header produce
the same (successful) match under the default jsdoc configuration. -/
theorem c7_witness :
    (mkMatcher c7Cfg).matchComments c7CrlfFrags =
      (mkMatcher c7Cfg).matchComments c7LfFrags ∧
    (mkMatcher c7Cfg).matchComments c7CrlfFrags = some [] := by
  constructor
  · exact c7_eol_invariance c7Cfg c7CrlfFrags c7LfFrags (by decide)
  · decide

theorem indexOfFrom_eq_neg_one {s pat : Str} {pos : Nat} (hpat : pat ≠ [])
    (h : ∀ i, i < s.length → pos ≤ i → pat.isPrefixOf (s.drop i) = false) :
    indexOfFrom s pat pos = -1 := by
  unfold indexOfFrom
  have hfil : ((List.range (s.length + 1)).filter
      (fun i => decide (pos ≤ i ∧ pat.isPrefixOf (s.drop i)))).head? = none := by
    rw [List.head?_eq_none_iff, List.filter_eq_nil_iff]
    intro i hi
    simp only [List.mem_range] at hi
    simp only [decide_eq_true_eq, not_and]
    intro hpos hpre
    by_cases hlt : i < s.length
    · rw [h i hlt hpos] at hpre
      cases hpre
    · have : s.drop i = [] := List.drop_eq_nil_of_le (by omega)
      rw [this] at hpre
      have : pat = [] := by simpa using hpre
      exact hpat this
  rw [hfil]

theorem indexOfFrom_spec {s pat : Str} {pos : Nat} {i : Nat}
    (h : indexOfFrom s pat pos = (i : Int)) :
    pos ≤ i ∧ pat.isPrefixOf (s.drop i) = true := by
  unfold indexOfFrom at h
  cases hh : ((List.range (s.length + 1)).filter
      (fun j => decide (pos ≤ j ∧ pat.isPrefixOf (s.drop j)))).head? with
  | none =>
      rw [hh] at h
      cases h
  | some j =>
      rw [hh] at h
      have hij : j = i := by
        have := h
        simpa using this
      subst hij
      have hmem := List.mem_of_mem_head? hh
      have := (List.mem_filter.mp hmem).2
      simpa using this

theorem indexOfFrom_found {s pat : Str} {pos : Nat} (j : Nat)
    (hj : pos ≤ j) (hjp : pat.isPrefixOf (s.drop j) = true) (hpat : pat ≠ []) :
    ∃ i : Nat, indexOfFrom s pat pos = (i : Int) := by
  unfold indexOfFrom
  cases hh : ((List.range (s.length + 1)).filter
      (fun k => decide (pos ≤ k ∧ pat.isPrefixOf (s.drop k)))).head? with
  | none =>
      exfalso
      rw [List.head?_eq_none_iff, List.filter_eq_nil_iff] at hh
      have hjlen : j ≤ s.length := by
        by_contra hc
        have : s.drop j = [] := List.drop_eq_nil_of_le (by omega)
        rw [this] at hjp
        exact hpat (by simpa using hjp)
      have := hh j (by simp [List.mem_range]; omega)
      simp only [decide_eq_true_eq, not_and] at this
      exact absurd hjp (by simpa using this hj)
  | some k => exact ⟨k, rfl⟩

theorem isPrefixOf_drop_length_le {s pat : Str} {i : Nat}
    (h : pat.isPrefixOf (s.drop i) = true) : i + pat.length ≤ s.length ∨ pat = [] := by
  by_cases hpat : pat = []
  · exact Or.inr hpat
  · left
    have hp : pat <+: s.drop i := by simpa using h
    have := hp.length_le
    rw [List.length_drop] at this
    by_cases hi : i ≤ s.length
    · omega
    · exfalso
      have : s.drop i = [] := List.drop_eq_nil_of_le (by omega)
      rw [this] at hp
      exact hpat (by simpa using hp)

/-- **C10.**  `getDocblock(text, position)` is `null` exactly when the
first `*/` at or after `position` is not strictly later than the first
`/*` (absent occurrences as `-1`); it is in particular `null` when no
`*/` occurs at all, and when `*/` occurs but `/*` does not, it returns a
non-null extraction starting at index 0 (JavaScript `substring` clamps
the `-1` start to `0`). -/
theorem c10_getDocblock_null_characterization (text : Str) (pos : Nat) :
    (getDocblock text pos = none ↔
      ¬ (indexOfFrom text "*/".data pos > indexOfFrom text "/*".data pos)) ∧
    ((∀ i, i < text.length → pos ≤ i →
        ("*/".data.isPrefixOf (text.drop i)) = false) →
      getDocblock text pos = none) ∧
    (∀ j, pos ≤ j → ("*/".data.isPrefixOf (text.drop j)) = true →
      (∀ i, i < text.length → pos ≤ i →
        ("/*".data.isPrefixOf (text.drop i)) = false) →
      ∃ e : Nat, indexOfFrom text "*/".data pos = (e : Int) ∧
        getDocblock text pos = some (text.take (e + 2), ((e : Int) + 2))) := by
  refine ⟨?_, ?_, ?_⟩
  · unfold getDocblock
    by_cases h : indexOfFrom text "*/".data pos > indexOfFrom text "/*".data pos
    · simp [h]
    · simp [h]
  · intro h
    have he : indexOfFrom text "*/".data pos = -1 :=
      indexOfFrom_eq_neg_one (by decide) h
    unfold getDocblock
    rw [he]
    have hnot : ¬ ((-1 : Int) > indexOfFrom text "/*".data pos) := by
      unfold indexOfFrom
      cases hh : ((List.range (text.length + 1)).filter
          (fun i => decide (pos ≤ i ∧ "/*".data.isPrefixOf (text.drop i)))).head? with
      | none => decide
      | some k =>
          show ¬ ((-1 : Int) > (k : Int))
          omega
    simp [hnot]
  · intro j hj hjp hnostart
    obtain ⟨e, he⟩ := indexOfFrom_found j hj hjp (by decide)
    have hstart : indexOfFrom text "/*".data pos = -1 :=
      indexOfFrom_eq_neg_one (by decide) hnostart
    refine ⟨e, he, ?_⟩
    unfold getDocblock
    rw [he, hstart]
    have hgt : ((e : Int) > -1) := by omega
    rw [if_pos hgt]
    have hspec := indexOfFrom_spec he
    have hbound := isPrefixOf_drop_length_le hspec.2
    have hlen : e + 2 ≤ text.length := by
      rcases hbound with h1 | h1
      · simpa using h1
      · cases h1
    have hsub : substringJsInt text (-1) ((e : Int) + 2) = text.take (e + 2) := by
      unfold substringJsInt
      have h1 : (max (-1 : Int) 0).toNat = 0 := by decide
      have h2 : (max ((e : Int) + 2) 0).toNat = e + 2 := by omega
      rw [h1, h2]
      have h3 : min 0 text.length = 0 := by omega
      have h4 : min (e + 2) text.length = e + 2 := by omega
      simp [h3, h4]
    rw [hsub]

/-- **C10 witness**: `"no close comment"` has no `*/` and yields `null`;
`"weird */ end"` has a `*/` but no `/*`, and the extraction starts at
index 0. -/
theorem c10_witness :
    getDocblock "no close comment".data 0 = none ∧
    getDocblock "weird */ end".data 0 = some ("weird */".data, 8) := by
  constructor
  · exact (c10_getDocblock_null_characterization "no close comment".data 0).2.1
      (by decide)
  · obtain ⟨e, he, hval⟩ :=
      (c10_getDocblock_null_characterization "weird */ end".data 0).2.2
        6 (by omega) (by decide) (by decide)
    have : e = 6 := by
      have : ((e : Int)) = 6 := by
        rw [← he]
        decide
      omega
    subst this
    simpa using hval

/-- **C1, counterexample.**  The round-trip property fails as stated: with
template `["Copyright (year)"]` and a shape configuration in which the
single registered pattern `year: \d{4}` *does* have a default value
(`"TBD"`), formatting and re-matching yields `none` for the `jsdoc`
style — the default does not satisfy the pattern's own regex (and the
`trim()` in `formatPatternValues` additionally strips the leading
line-prefix space), so the match is a mismatch. -/
theorem c1_roundtrip_counterexample :
    ((tbdShape.patterns.getD []).all (fun p => p.2.defaultValue.isSome)) = true ∧
    roundTrip Style.jsdoc ["Copyright (year)".data] tbdShape = none := by
  constructor
  · decide
  · decide

/-- **C2.**  At scenario C the current matcher reports a (non-null) match,
but the captured-value dictionary is empty: no entry for `company` at all,
let alone `["Acme"]`.  (`match` resets `this.patternOrder` to `[]` and
then only `RegExp.test`s the prebuilt regexes, so the final loop never
runs; even without the reset, indexing the boolean `test` result could
never produce a captured string.) -/
theorem c2_match_loses_captures :
    (mkMatcher scenCCfg).matchComments [scenCActual] = some [] ∧
    (((mkMatcher scenCCfg).matchComments [scenCActual]).getD []).find?
      (fun p => p.1 = "company".data) = none := by
  constructor
  · decide
  · decide

/-- **C3.**  Formatting is not deterministic across repeated invocations:
the shallow copy `{...this.patternValues}` in `formatPatternValues` shares
the per-name arrays with the formatter state, `shift()` consumes them, and
the second `format` call renders the exhausted placeholder as the empty
string.  The two renderings differ byte-wise. -/
theorem c3_format_not_idempotent :
    (fmtRepeat.format Style.jsdoc).1 = "/**\n* Copyright Acme.\n */".data ∧
    ((fmtRepeat.format Style.jsdoc).2.format Style.jsdoc).1 =
      "/**\n* Copyright .\n */".data ∧
    (fmtRepeat.format Style.jsdoc).1 ≠
      ((fmtRepeat.format Style.jsdoc).2.format Style.jsdoc).1 := by
  refine ⟨by decide, by decide, by decide⟩

/-- **C4, counterexample.**  Template line `(p)-(q)` with `p: \w+`,
`q: \d-\d`, actual text `abc-1-2`: the validation capture for `q` is `2`
(the greedy `(?<p>.*)` absorbs `abc-1`), which fails `\d-\d`, so `null` is
recorded for `q` — yet the overall result *is* a mismatch (of type
`pattern`), even though the step-4 anchored composite regex
`^(\w+)-(\d-\d)` does match the actual text: `verifyPatternValues`'
mismatches are returned before the anchoring is ever consulted. -/
theorem c4_pattern_failure_forces_mismatch :
    v3MatchCore revalCfg ["abc-1-2".data] =
      (.ok (some [Mismatch.pattern ['2']]),
       [("p".data, some "abc-1".data), ("q".data, none)]) ∧
    testStart (escapedPatternAtoms revalReg "(p)-(q)".data) "abc-1-2".data = true := by
  constructor
  · decide
  · decide

/-- **C4 (amended), witness.**  The amended statement instantiated at the
`(p)-(q)` / `abc-1-2` scenario: the verification step records one `none`
push (for `q`) and one `pattern` mismatch, and the overall verdict is that
mismatch. -/
theorem c4_amended_witness :
    v3MatchCore { blockPre := none, blockSuf := none, linePre := none,
                  style := Style.jsdoc, expectedLines := ["(p)-(q)".data],
                  patterns := some revalReg } ["abc-1-2".data] =
      (.ok (some [Mismatch.pattern ['2']]),
       [("p".data, some "abc-1".data), ("q".data, none)]) ∧
    (([("p".data, some "abc-1".data), ("q".data, none)] : List Push).filter
        (fun p => p.2.isNone)).length = [Mismatch.pattern ['2']].length :=
  c4_amended_null_recorded_but_mismatch revalReg "(p)-(q)".data
    "abc-1-2".data [Mismatch.pattern ['2']]
    [("p".data, some "abc-1".data), ("q".data, none)]
    (by decide) (by decide) (by decide) (by decide)

/-- **C5.**  A template longer than the available fragment text can raise
an exception instead of an ordinary no-match: with template `ab(p)cd`
(7 characters) against the single 5-character fragment `xx123`, the
cursor slices the expected string to `ab(p)`, the validation regex
`ab(?<p>.*)` fails to match `xx123`, and the source dereferences the
`null` exec result (`patternValueMatches.groups`) — a `TypeError`. -/
theorem c5_too_long_template_throws :
    ("ab(p)cd".data.length > "xx123".data.length) ∧
    v3MatchCore tooLongCfg ["xx123".data] = (.err .typeError, []) := by
  constructor
  · decide
  · decide

/-- **C8, counterexample.**  With `preservePragmas = true` and a header
containing the directive line `@preserve it`, the synthesized replacement
for the `line` style does *not* contain the directive: the merge is gated
on `style === "jsdoc"`. -/
theorem c8_line_style_drops_pragmas :
    (pragmaCapture pragmaLine).isSome = true ∧
    synthesizedReplacement pragmaFmt Style.line true [pragmaLine] = "// Hi".data ∧
    isInfixStr "@preserve it".data
      (synthesizedReplacement pragmaFmt Style.line true [pragmaLine]) = false := by
  refine ⟨by decide, by decide, by decide⟩

/-- **C9, counterexample.**  Two successive `match` calls on the same v3
matcher instance with the same fragment do not return equal results: both
report the same (empty) mismatches, but the instance-attached
`patternValues` accumulates, so the second result's list for `y` holds the
captured value twice. -/
theorem c9_second_match_accumulates :
    (((mkV3Matcher dblCfg).matchComments ["Date 123".data]).1 =
      .ok { mismatches := none,
            patternValues := [("y".data, [some "123".data])] }) ∧
    ((((mkV3Matcher dblCfg).matchComments ["Date 123".data]).2.matchComments
        ["Date 123".data]).1 =
      .ok { mismatches := none,
            patternValues := [("y".data, [some "123".data, some "123".data])] }) ∧
    (((mkV3Matcher dblCfg).matchComments ["Date 123".data]).1 ≠
      (((mkV3Matcher dblCfg).matchComments ["Date 123".data]).2.matchComments
        ["Date 123".data]).1) := by
  refine ⟨by decide, by decide, by decide⟩

end Headers
